import Mathlib

set_option maxRecDepth 4000

/-!
Shallow embedding of the py-c3d library (src/c3d/c3d.py).

Conventions used throughout this development:
* a byte is a `Nat` below 256; byte strings are `List Nat`;
* Python text strings are lists of Unicode code points (`List Nat`);
* numpy `float32` values are represented either by their IEEE-754 bit
  pattern (a `Nat` below `2 ^ 32`) or by the exact rational value the bit
  pattern denotes, as noted at each definition;
* fallible Python code (struct unpacking, numpy `frombuffer`, raising
  accessors) is modelled with `Option`.
-/

namespace C3D

def PROCESSOR_INTEL : Nat := 84
def PROCESSOR_DEC : Nat := 85
def PROCESSOR_MIPS : Nat := 86

/-! ### Little/big endian byte helpers -/

/-- Read a little-endian 16 bit unsigned integer from two bytes. -/
def leU16 (b0 b1 : Nat) : Nat := b0 + b1 * 256

/-- Read a little-endian 32 bit unsigned integer from four bytes. -/
def leU32 (b0 b1 b2 b3 : Nat) : Nat := b0 + b1 * 256 + b2 * 65536 + b3 * 16777216

/-- Read a big-endian 32 bit unsigned integer from four bytes. -/
def beU32 (b0 b1 b2 b3 : Nat) : Nat := b3 + b2 * 256 + b1 * 65536 + b0 * 16777216

/-- Serialize a 16 bit unsigned integer to two little-endian bytes
    (`struct.pack('<H', n)`; the value is reduced mod 2^16 where Python would
    raise `struct.error` on an out-of-range argument). -/
def packLE16 (n : Nat) : List Nat := [n % 256, n / 256 % 256]

/-- Serialize a 32 bit unsigned integer to four little-endian bytes. -/
def packLE32 (n : Nat) : List Nat :=
  [n % 256, n / 256 % 256, n / 65536 % 256, n / 16777216 % 256]

/-! ### `DEC_to_IEEE_BYTES` (bulk DEC float conversion), byte stage

The numpy code operates on a flat `uint8` buffer, four bytes per float:

    reshuffled[0::4] = bytes[2::4]
    reshuffled[1::4] = bytes[3::4]
    reshuffled[2::4] = bytes[0::4]
    reshuffled[3::4] = bytes[1::4] + ((bytes[1::4] & 0x7f == 0) - 1)

The last line adds `0` when the low seven bits of the byte are zero and `-1`
otherwise, in wrapping `uint8` arithmetic.  `numpy` raises a shape mismatch
error when the buffer length is not a multiple of four.
-/

/-- The four output bytes produced for one aligned input quadruple.
    Results are stored into a `uint8` buffer, hence the mod 256. -/
def decQuad (b0 b1 b2 b3 : Nat) : List Nat :=
  [b2 % 256, b3 % 256, b0 % 256,
   (b1 + (if b1 % 128 = 0 then 0 else 255)) % 256]

/-- The reshuffled byte buffer, built quadruple by quadruple. -/
def decReshuffle : List Nat → List Nat
  | b0 :: b1 :: b2 :: b3 :: rest => decQuad b0 b1 b2 b3 ++ decReshuffle rest
  | rest => rest

/-- `DEC_to_IEEE_BYTES`, byte stage: `none` models the numpy shape error on a
    buffer whose length is not a multiple of four. -/
def DEC_to_IEEE_BYTES_bytes (bs : List Nat) : Option (List Nat) :=
  if bs.length % 4 = 0 then some (decReshuffle bs) else none

theorem decReshuffle_length : ∀ bs : List Nat, (decReshuffle bs).length = bs.length
  | [] => rfl
  | [_] => rfl
  | [_, _] => rfl
  | [_, _, _] => rfl
  | _ :: _ :: _ :: _ :: rest => by
      simp [decReshuffle, decQuad, decReshuffle_length rest]

theorem decReshuffle_getElem_add4 (b0 b1 b2 b3 : Nat) (rest : List Nat) (k : Nat) :
    (decReshuffle (b0 :: b1 :: b2 :: b3 :: rest))[k + 4]? = (decReshuffle rest)[k]? := by
  have h : (decQuad b0 b1 b2 b3).length = 4 := by simp [decQuad]
  rw [show decReshuffle (b0 :: b1 :: b2 :: b3 :: rest)
        = decQuad b0 b1 b2 b3 ++ decReshuffle rest from rfl,
      List.getElem?_append_right (by omega : (decQuad b0 b1 b2 b3).length ≤ k + 4), h]
  simp

theorem cons4_getElem_add4 (b0 b1 b2 b3 : Nat) (rest : List Nat) (k : Nat) :
    (b0 :: b1 :: b2 :: b3 :: rest)[k + 4]? = rest[k]? := by
  simp [List.getElem?_cons_succ, show k + 4 = k + 1 + 1 + 1 + 1 by ring]

/-- C3 -- For every input byte array whose length is a multiple of 4, the bulk
DEC-to-IEEE conversion maps each aligned 4-byte quadruple so that output bytes
0,1,2 are input bytes 2,3,0 respectively, and output byte 3 is input byte 1
decremented by 1 (modulo 256) exactly when the low 7 bits of input byte 1 are
non-zero, and unchanged otherwise. -/
theorem claim_C3_dec_bulk_shuffle (bs : List Nat) (h4 : bs.length % 4 = 0)
    (hb : ∀ b ∈ bs, b < 256) (i : Nat) (hi : 4 * i + 3 < bs.length)
    (b1 : Nat) (hb1 : bs[4 * i + 1]? = some b1) :
    ∃ out, DEC_to_IEEE_BYTES_bytes bs = some out ∧
      out.length = bs.length ∧
      out[4 * i]? = bs[4 * i + 2]? ∧
      out[4 * i + 1]? = bs[4 * i + 3]? ∧
      out[4 * i + 2]? = bs[4 * i]? ∧
      out[4 * i + 3]? = some (if b1 % 128 = 0 then b1 else (b1 - 1) % 256) := by
  refine ⟨decReshuffle bs, by simp [DEC_to_IEEE_BYTES_bytes, h4], decReshuffle_length bs, ?_⟩
  induction i generalizing bs with
  | zero =>
    match bs, hi with
    | b0 :: c1 :: b2 :: b3 :: rest, _ =>
      have h0 : b0 < 256 := hb b0 (by simp)
      have h1 : c1 < 256 := hb c1 (by simp)
      have h2 : b2 < 256 := hb b2 (by simp)
      have h3 : b3 < 256 := hb b3 (by simp)
      have hbb : c1 = b1 := by simpa using hb1
      rw [← hbb]
      refine ⟨?_, ?_, ?_, ?_⟩ <;>
        simp [decReshuffle, decQuad, Nat.mod_eq_of_lt, h0, h1, h2, h3]
      by_cases hz : c1 % 128 = 0
      · simp [hz, Nat.mod_eq_of_lt h1]
      · have hpos : 0 < c1 := by
          rcases Nat.eq_zero_or_pos c1 with h | h
          · exact absurd (by simp [h]) hz
          · exact h
        have heq : (c1 + 255) % 256 = (c1 - 1) % 256 := by omega
        simp [hz, heq]
  | succ n ih =>
    match bs, hi with
    | b0 :: c1 :: b2 :: b3 :: rest, hi =>
      have hlen : rest.length % 4 = 0 := by
        simp only [List.length_cons] at h4
        omega
      have hirest : 4 * n + 3 < rest.length := by
        simp only [List.length_cons] at hi
        omega
      have hb1r : rest[4 * n + 1]? = some b1 := by
        rw [show 4 * (n + 1) + 1 = (4 * n + 1) + 4 by ring, cons4_getElem_add4] at hb1
        exact hb1
      obtain ⟨r0, r1, r2, r3⟩ :=
        ih rest hlen (fun b hbm => hb b (by simp [hbm])) hirest hb1r
      refine ⟨?_, ?_, ?_, ?_⟩
      · rw [show 4 * (n + 1) = 4 * n + 4 by ring,
            show 4 * n + 4 + 2 = (4 * n + 2) + 4 by ring,
            decReshuffle_getElem_add4, cons4_getElem_add4]
        exact r0
      · rw [show 4 * (n + 1) + 1 = (4 * n + 1) + 4 by ring,
            show 4 * (n + 1) + 3 = (4 * n + 3) + 4 by ring,
            decReshuffle_getElem_add4, cons4_getElem_add4]
        exact r1
      · rw [show 4 * (n + 1) + 2 = (4 * n + 2) + 4 by ring,
            show 4 * (n + 1) = 4 * n + 4 by ring,
            decReshuffle_getElem_add4, cons4_getElem_add4]
        exact r2
      · rw [show 4 * (n + 1) + 3 = (4 * n + 3) + 4 by ring,
            decReshuffle_getElem_add4]
        exact r3

/-- Witness for C3 at the concrete input `[0x00, 0x41, 0x10, 0x20]`
    (quadruple 0: byte 1 is `0x41`, low seven bits non-zero). -/
theorem claim_C3_dec_bulk_shuffle_witness :
    ∃ out, DEC_to_IEEE_BYTES_bytes [0, 65, 16, 32] = some out ∧
      out.length = ([0, 65, 16, 32] : List Nat).length ∧
      out[4 * 0]? = ([0, 65, 16, 32] : List Nat)[4 * 0 + 2]? ∧
      out[4 * 0 + 1]? = ([0, 65, 16, 32] : List Nat)[4 * 0 + 3]? ∧
      out[4 * 0 + 2]? = ([0, 65, 16, 32] : List Nat)[4 * 0]? ∧
      out[4 * 0 + 3]? = some (if 65 % 128 = 0 then 65 else (65 - 1) % 256) :=
  claim_C3_dec_bulk_shuffle [0, 65, 16, 32] (by decide) (by decide) 0 (by decide)
    65 (by decide)

/-! ### IEEE-754 binary32 values and the scalar DEC conversion -/

/-- Powers of two as rationals (kernel-reduction friendly). -/
def pow2Q (k : ℤ) : ℚ :=
  if 0 ≤ k then ((2 ^ k.toNat : Nat) : ℚ) else 1 / ((2 ^ (-k).toNat : Nat) : ℚ)

/-- Exact rational value denoted by a finite IEEE-754 binary32 bit pattern;
    `none` for exponent 255 (infinities and NaNs), whose downstream integer
    conversions raise in Python. -/
def f32ToRat (bits : Nat) : Option ℚ :=
  let s : Nat := bits / 2 ^ 31 % 2
  let e : Nat := bits / 2 ^ 23 % 256
  let m : Nat := bits % 2 ^ 23
  if e = 255 then none
  else
    let mag : ℚ :=
      if e = 0 then (m : ℚ) * pow2Q (-149)
      else ((m + 2 ^ 23 : Nat) : ℚ) * pow2Q ((e : ℤ) - 150)
    some (if s = 1 then -mag else mag)

/-- `UNPACK_FLOAT_IEEE`: reinterpret a u32 bit pattern as a float. -/
def UNPACK_FLOAT_IEEE (w : Nat) : Option ℚ := f32ToRat (w % 2 ^ 32)

/-- `DEC_to_IEEE`, bit stage: swap the 16-bit halves, then decrement the top
    (exponent) byte.  In Python `((reshuffled & 0xFF000000) - 1) & 0xFF000000`
    maps a zero exponent byte to `0xFF` (two's complement of `-1`), producing
    an IEEE inf/NaN pattern. -/
def DEC_to_IEEE_bits (w : Nat) : Nat :=
  let reshuffled := w / 2 ^ 16 % 2 ^ 16 + w % 2 ^ 16 * 2 ^ 16
  let t := reshuffled / 2 ^ 24 % 256
  let expBits := if t = 0 then 255 else t - 1
  reshuffled % 2 ^ 24 + expBits * 2 ^ 24

/-- `DEC_to_IEEE`: the value of the converted bit pattern. -/
def DEC_to_IEEE (w : Nat) : Option ℚ := f32ToRat (DEC_to_IEEE_bits w)

/-- Python `int(q)`: truncation toward zero. -/
def pyInt (q : ℚ) : Int := q.num.tdiv q.den

/-! ### `Param` payload and its typed accessors

`Param._as` reads with `np.frombuffer(self.bytes, count=1, dtype)`, which
raises when the buffer holds fewer bytes than one element (`none` here) and
otherwise reads the first element using the processor's endianness.
`total_bytes` is computed from the declared dimensions, not from the actual
payload length. -/

structure ParamD where
  bytes_per_element : Int
  dimensions : List Nat
  bytes : List Nat
deriving DecidableEq, Repr

/-- `Param.num_elements`: product of the declared dimensions. -/
def ParamD.num_elements (p : ParamD) : Nat := p.dimensions.foldl (· * ·) 1

/-- `Param.total_bytes`: `num_elements * abs(bytes_per_element)`. -/
def ParamD.total_bytes (p : ParamD) : Nat := p.num_elements * p.bytes_per_element.natAbs

/-- `Param.uint8_value`. -/
def ParamD.uint8_value (p : ParamD) : Option Nat :=
  match p.bytes with
  | b :: _ => some b
  | [] => none

/-- `Param.uint16_value` (little-endian for Intel/DEC, big-endian for MIPS). -/
def ParamD.uint16_value (proc : Nat) (p : ParamD) : Option Nat :=
  match p.bytes with
  | b0 :: b1 :: _ => some (if proc = PROCESSOR_MIPS then leU16 b1 b0 else leU16 b0 b1)
  | _ => none

/-- `Param.uint32_value` (little-endian for Intel/DEC, big-endian for MIPS). -/
def ParamD.uint32_value (proc : Nat) (p : ParamD) : Option Nat :=
  match p.bytes with
  | b0 :: b1 :: b2 :: b3 :: _ =>
      some (if proc = PROCESSOR_MIPS then beU32 b0 b1 b2 b3 else leU32 b0 b1 b2 b3)
  | _ => none

/-- `Param._as(np.uint32)`: native little-endian u32 read, used by the DEC
    branch of `float_value` regardless of the processor type. -/
def ParamD.uint32_native (p : ParamD) : Option Nat :=
  match p.bytes with
  | b0 :: b1 :: b2 :: b3 :: _ => some (leU32 b0 b1 b2 b3)
  | _ => none

/-- `Param.float_value`: DEC payloads go through `DEC_to_IEEE` on the native
    u32 read; Intel/MIPS payloads are reinterpreted as f32 with the
    processor's endianness. -/
def ParamD.float_value (proc : Nat) (p : ParamD) : Option ℚ :=
  if proc = PROCESSOR_DEC then
    match p.uint32_native with
    | some w => DEC_to_IEEE w
    | none => none
  else
    match p.uint32_value proc with
    | some w => f32ToRat w
    | none => none

/-- `Param._as_integer_value` from the source:

    if self.total_bytes >= 4: check the f32 value against its truncation,
    falling back to the u32 reinterpretation; elif self.total_bytes >= 2:
    u16; else: u8.  Results are exact rationals. -/
def ParamD.asIntegerValue (proc : Nat) (p : ParamD) : Option ℚ :=
  if p.total_bytes ≥ 4 then
    match p.float_value proc with
    | none => none
    | some v => if (pyInt v : ℚ) = v then some v else (p.uint32_value proc).map (fun n => (n : ℚ))
  else if p.total_bytes ≥ 2 then (p.uint16_value proc).map (fun n => (n : ℚ))
  else p.uint8_value.map (fun n => (n : ℚ))

/-- C6, as the spec words it: at least 4 bytes of payload read an f32,
    returned when the float equals its integer truncation, with the u32
    reinterpretation of the same bytes otherwise; a payload of exactly 2 or 3
    bytes reads a u16; a smaller payload reads a u8. -/
def specAsIntegerValue (proc : Nat) (p : ParamD) : Option ℚ :=
  if 4 ≤ p.total_bytes then
    match p.float_value proc with
    | none => none
    | some v => if (pyInt v : ℚ) = v then some v else (p.uint32_value proc).map (fun n => (n : ℚ))
  else if p.total_bytes = 2 ∨ p.total_bytes = 3 then (p.uint16_value proc).map (fun n => (n : ℚ))
  else p.uint8_value.map (fun n => (n : ℚ))

/-- C6 -- For every Param, as_integer_value returns: when the payload is at
least 4 bytes, the f32 interpretation if that float equals its integer
truncation and otherwise the u32 reinterpretation of the same bytes; when the
payload is 2 or 3 bytes, the u16 interpretation; and when the payload is
smaller, the u8 interpretation. -/
theorem claim_C6_as_integer_value (proc : Nat) (p : ParamD) :
    p.asIntegerValue proc = specAsIntegerValue proc p := by
  unfold ParamD.asIntegerValue specAsIntegerValue
  by_cases h4 : 4 ≤ p.total_bytes
  · simp [h4]
  · have h23 : (2 ≤ p.total_bytes) = (p.total_bytes = 2 ∨ p.total_bytes = 3) := by
      apply propext
      constructor
      · intro h; omega
      · intro h; omega
    simp only [ge_iff_le, h4, if_false, h23]

unseal Rat.mul Rat.add Rat.inv Rat.sub in
/-- Sanity example used while developing C6: a 4-byte payload holding the f32
    bit pattern of 2.0 (integral) is returned as the float value 2. -/
theorem c6_example_integral_float :
    ParamD.asIntegerValue PROCESSOR_INTEL ⟨4, [1], [0, 0, 0, 64]⟩ = some 2 := by
  decide

unseal Rat.mul Rat.add Rat.inv Rat.sub in
/-- Sanity example: a 4-byte payload holding the f32 bit pattern of 2.5
    (non-integral) falls back to the u32 reinterpretation `0x40200000`. -/
theorem c6_example_nonintegral_float :
    ParamD.asIntegerValue PROCESSOR_INTEL ⟨4, [1], [0, 0, 32, 64]⟩ = some 1075838976 := by
  decide

/-! ### Strings (as lists of code points) and Python dict association lists -/

/-- Python `str.upper` on one character, restricted to ASCII (C3D group and
    parameter names are ASCII). -/
def upperByte (c : Nat) : Nat := if 97 ≤ c ∧ c ≤ 122 then c - 32 else c

/-- Python `str.upper`. -/
def pyUpper (s : List Nat) : List Nat := s.map upperByte

/-- Python `s.split(sep, 1)` restricted to the case `sep in s`: the parts
    before and after the first occurrence of `sep`. -/
def splitFirst (sep : Nat) : List Nat → List Nat × List Nat
  | [] => ([], [])
  | c :: rest =>
      if c = sep then ([], rest)
      else
        let pr := splitFirst sep rest
        (c :: pr.1, pr.2)

/-- Decimal digits (code points) of a natural number, fuel-based. -/
def natStrAux : Nat → Nat → List Nat
  | 0, _ => []
  | fuel + 1, n => if n < 10 then [48 + n] else natStrAux fuel (n / 10) ++ [48 + n % 10]

/-- Python `str(n)` for a natural number. -/
def natStr (n : Nat) : List Nat := natStrAux (n + 1) n

/-- Python `str(i)` for an integer. -/
def intStr (i : Int) : List Nat := if i < 0 then 45 :: natStr i.natAbs else natStr i.toNat

/-- Association list lookup (`d.get(k)` / `d[k]`). -/
def alookup {α β : Type} [DecidableEq α] : List (α × β) → α → Option β
  | [], _ => none
  | (k, v) :: rest, a => if k = a then some v else alookup rest a

/-- Python dict assignment `d[k] = v`: overwrite in place, else append. -/
def aset {α β : Type} [DecidableEq α] : List (α × β) → α → β → List (α × β)
  | [], a, b => [(a, b)]
  | (k, v) :: rest, a, b => if k = a then (a, b) :: rest else (k, v) :: aset rest a b

/-- Python `del d[k]` (the key is present at most once in our states). -/
def adel {α β : Type} [DecidableEq α] : List (α × β) → α → List (α × β)
  | [], _ => []
  | (k, v) :: rest, a => if k = a then rest else (k, v) :: adel rest a

/-! ### Manager: groups indexed by both integer id and name

`Manager._groups` is one Python dict whose keys are ints and strings.  Group
objects are mutable and shared between keys; we model object identity with a
reference (`Nat`) into a heap, and the heap entry holds the group's mutable
name (`None` for the unnamed placeholders the Reader creates) and its
parameter dict. -/

inductive MKey where
  | id : Int → MKey
  | name : List Nat → MKey
deriving DecidableEq, Repr

def MKey.isIdKey : MKey → Bool
  | MKey.id _ => true
  | MKey.name _ => false

structure GroupD where
  gname : Option (List Nat)
  params : List (List Nat × ParamD)
deriving DecidableEq, Repr

structure MState where
  entries : List (MKey × Nat)
  heap : List (Nat × GroupD)
  fresh : Nat
deriving DecidableEq, Repr

/-- The state of a freshly constructed `Manager`. -/
def mstate0 : MState := ⟨[], [], 0⟩

/-- `Manager.add_group(group_id, name, desc, rename_duplicated_groups)`.
    `none` models the raised `KeyError` (no state is mutated before a raise).
    The stored name is upper-cased; on a name collision with renaming enabled
    the stored name becomes `name.upper() + str(group_id)`. -/
def addGroup (st : MState) (group_id : Int) (nm : List Nat)
    (renameDuplicatedGroups : Bool) : Option MState :=
  if (alookup st.entries (MKey.id group_id)).isSome then none
  else
    let nmU := pyUpper nm
    match alookup st.entries (MKey.name nmU) with
    | some _ =>
        if renameDuplicatedGroups then
          let nm2 := nmU ++ intStr group_id
          let ref := st.fresh
          some { entries := aset (aset st.entries (MKey.name nm2) ref) (MKey.id group_id) ref,
                 heap := aset st.heap ref ⟨some nm2, []⟩,
                 fresh := st.fresh + 1 }
        else none
    | none =>
        let ref := st.fresh
        some { entries := aset (aset st.entries (MKey.name nmU) ref) (MKey.id group_id) ref,
               heap := aset st.heap ref ⟨some nmU, []⟩,
               fresh := st.fresh + 1 }

/-- `Manager.remove_group`: no-op when the key is absent; otherwise every
    dict key bound to the same group object is deleted. -/
def removeGroup (st : MState) (k : MKey) : MState :=
  match alookup st.entries k with
  | none => st
  | some ref => { st with entries := st.entries.filter (fun e => e.2 != ref) }

/-- `Manager.rename_group(group_id, new_group_id)` with the group addressed
    by a dict key (the Group-instance overload is not modelled).  A string
    `new_group_id` deletes the key under the group's current name, stores the
    new name on the group WITHOUT upper-casing it, and adds the new string
    key; an integer `new_group_id` deletes the key that was passed in and
    adds the new integer key.  `none` models a raise; renaming a key to
    itself is a silent no-op. -/
def renameGroup (st : MState) (group_id new_group_id : MKey) : Option MState :=
  match alookup st.entries group_id with
  | none => none
  | some ref =>
      if (alookup st.entries new_group_id).isSome then
        if new_group_id = group_id then some st else none
      else
        match new_group_id with
        | MKey.name s =>
            let entries1 :=
              match alookup st.heap ref with
              | some g =>
                  match g.gname with
                  | some n =>
                      if (alookup st.entries (MKey.name n)).isSome
                      then adel st.entries (MKey.name n)
                      else st.entries
                  | none => st.entries
              | none => st.entries
            let heap1 :=
              match alookup st.heap ref with
              | some g => aset st.heap ref { g with gname := some s }
              | none => st.heap
            some { st with entries := aset entries1 (MKey.name s) ref, heap := heap1 }
        | MKey.id i =>
            some { st with entries := aset (adel st.entries group_id) (MKey.id i) ref }

/-- The value returned by `Manager.get`: a group reference or a parameter. -/
inductive Entity where
  | group : Nat → Entity
  | param : Nat → List Nat → Entity
deriving DecidableEq, Repr

/-- The body of `Manager.get` for a string key, after `group = group.upper()`:
    split at the first period, then at the first colon, and resolve to a
    group and optionally one of its parameters. -/
def managerGetStr (st : MState) (g0 : List Nat) : Option Entity :=
  let gp1 : List Nat × Option (List Nat) :=
    if 46 ∈ g0 then
      let pr := splitFirst 46 g0
      (pr.1, some pr.2)
    else (g0, none)
  let gp2 : List Nat × Option (List Nat) :=
    if 58 ∈ gp1.1 then
      let pr := splitFirst 58 gp1.1
      (pr.1, some pr.2)
    else gp1
  match alookup st.entries (MKey.name gp2.1) with
  | none => none
  | some ref =>
      match gp2.2 with
      | some pname =>
          match alookup st.heap ref with
          | some g =>
              if (alookup g.params pname).isSome then some (Entity.param ref pname)
              else none
          | none => none
      | none => some (Entity.group ref)

/-- `Manager.get(group, default)` with the default modelled as `none` (the
    code returns the supplied default unchanged from exactly the branches
    that produce `none` here).  An integer key is looked up directly; a
    string key is upper-cased and resolved by `managerGetStr`. -/
def managerGet (st : MState) (key : Int ⊕ List Nat) : Option Entity :=
  match key with
  | Sum.inl i => (alookup st.entries (MKey.id i)).map Entity.group
  | Sum.inr s => managerGetStr st (pyUpper s)

/-! ### The dual-key invariant (claim C5) -/

/-- Some integer dict key resolves to this group reference. -/
def idKeyForB (st : MState) (ref : Nat) : Bool :=
  st.entries.any (fun e =>
    e.2 == ref && e.1.isIdKey && (alookup st.entries e.1 == some ref))

/-- `m.get(g.name)` returns this group. -/
def nameKeyForB (st : MState) (ref : Nat) : Bool :=
  match alookup st.heap ref with
  | some g =>
      match g.gname with
      | some n => managerGet st (Sum.inr n) == some (Entity.group ref)
      | none => false
  | none => false

/-- Claim C5's invariant: every group stored in the manager is returned both
    by `get` on its name and by `get` on an integer id. -/
def dualKeyInvB (st : MState) : Bool :=
  st.entries.all (fun e => idKeyForB st e.2 && nameKeyForB st e.2)

/-! ### Manager operation sequences -/

inductive MOp where
  | add : Int → List Nat → Bool → MOp
  | remove : MKey → MOp
  | rename : MKey → MKey → MOp
deriving DecidableEq, Repr

/-- Apply one operation; a raised error leaves the manager unchanged (none of
    the three methods mutates state before raising). -/
def applyOp (st : MState) : MOp → MState
  | MOp.add i nm rd => (addGroup st i nm rd).getD st
  | MOp.remove k => removeGroup st k
  | MOp.rename o n => (renameGroup st o n).getD st

def applyOps (st : MState) : List MOp → MState
  | [] => st
  | op :: ops => applyOps (applyOp st op) ops

/-- Guard for the amended claim C5: added group names contain no separator
    characters and, when the duplicate-renaming path is taken, the
    synthesized name does not collide with an existing key; string rename
    targets are already upper-cased and separator-free; integer renames
    address the group by its integer key. -/
def opGuardB (st : MState) : MOp → Bool
  | MOp.add i nm rd =>
      (46 ∉ pyUpper nm : Bool) && (58 ∉ pyUpper nm : Bool) &&
      (if (alookup st.entries (MKey.name (pyUpper nm))).isSome ∧ rd = true then
        alookup st.entries (MKey.name (pyUpper nm ++ intStr i)) == none
      else true)
  | MOp.remove _ => true
  | MOp.rename o n =>
      match n with
      | MKey.name s => (s == pyUpper s) && (46 ∉ s : Bool) && (58 ∉ s : Bool)
      | MKey.id _ => o.isIdKey

def guardedB (st : MState) : List MOp → Bool
  | [] => true
  | op :: ops => opGuardB st op && guardedB (applyOp st op) ops

/-! ### Association list lemmas -/

theorem alookup_mem {α β : Type} [DecidableEq α] {l : List (α × β)} {k : α} {v : β}
    (h : alookup l k = some v) : (k, v) ∈ l := by
  induction l with
  | nil => simp [alookup] at h
  | cons hd tl ih =>
    obtain ⟨k0, v0⟩ := hd
    by_cases hk : k0 = k
    · subst hk
      simp [alookup] at h
      simp [h]
    · simp [alookup, hk] at h
      simp [ih h]

theorem alookup_of_mem {α β : Type} [DecidableEq α] {l : List (α × β)} {k : α} {v : β}
    (hnd : (l.map Prod.fst).Nodup) (h : (k, v) ∈ l) : alookup l k = some v := by
  induction l with
  | nil => simp at h
  | cons hd tl ih =>
    obtain ⟨k0, v0⟩ := hd
    rw [List.map_cons] at hnd
    have hnd2 := List.nodup_cons.mp hnd
    rcases List.mem_cons.mp h with he | h2
    · obtain ⟨rfl, rfl⟩ := Prod.mk.injEq k v k0 v0 ▸ he
      simp [alookup]
    · have hne : k0 ≠ k := by
        intro hc
        subst hc
        exact hnd2.1 (by simpa using List.mem_map_of_mem Prod.fst h2)
      simp [alookup, hne, ih hnd2.2 h2]

theorem alookup_aset_self {α β : Type} [DecidableEq α] (l : List (α × β)) (k : α) (v : β) :
    alookup (aset l k v) k = some v := by
  induction l with
  | nil => simp [aset, alookup]
  | cons hd tl ih =>
    obtain ⟨k0, v0⟩ := hd
    by_cases hk : k0 = k
    · simp [aset, hk, alookup]
    · simp [aset, hk, alookup, ih]

theorem alookup_aset_ne {α β : Type} [DecidableEq α] (l : List (α × β)) (k k2 : α) (v : β)
    (h : k2 ≠ k) : alookup (aset l k v) k2 = alookup l k2 := by
  induction l with
  | nil => simp [aset, alookup, Ne.symm h]
  | cons hd tl ih =>
    obtain ⟨k0, v0⟩ := hd
    by_cases hk : k0 = k
    · subst hk
      simp [aset, alookup, Ne.symm h]
    · simp only [aset, if_neg hk]
      by_cases hk2 : k0 = k2
      · simp [alookup, hk2]
      · simp [alookup, hk2, ih]

theorem alookup_adel_ne {α β : Type} [DecidableEq α] (l : List (α × β)) (k k2 : α)
    (h : k2 ≠ k) : alookup (adel l k) k2 = alookup l k2 := by
  induction l with
  | nil => simp [adel]
  | cons hd tl ih =>
    obtain ⟨k0, v0⟩ := hd
    by_cases hk : k0 = k
    · subst hk
      simp [adel, alookup, Ne.symm h]
    · by_cases hk2 : k0 = k2
      · simp [adel, hk, alookup, hk2, h]
      · simp [adel, hk, alookup, hk2, ih]

theorem mem_aset {α β : Type} [DecidableEq α] {l : List (α × β)} {k : α} {v : β}
    {e : α × β} (h : e ∈ aset l k v) : e = (k, v) ∨ e ∈ l := by
  induction l with
  | nil => simpa [aset] using h
  | cons hd tl ih =>
    obtain ⟨k0, v0⟩ := hd
    by_cases hk : k0 = k
    · subst hk
      simp [aset] at h
      rcases h with h | h
      · left; simp [h]
      · right; simp [h]
    · simp [aset, hk] at h
      rcases h with h | h
      · right; simp [h]
      · rcases ih h with h | h
        · left; exact h
        · right; simp [h]

theorem mem_adel {α β : Type} [DecidableEq α] {l : List (α × β)} {k : α}
    {e : α × β} (h : e ∈ adel l k) : e ∈ l := by
  induction l with
  | nil => simpa [adel] using h
  | cons hd tl ih =>
    obtain ⟨k0, v0⟩ := hd
    by_cases hk : k0 = k
    · subst hk
      simp [adel] at h
      simp [h]
    · simp [adel, hk] at h
      rcases h with h | h
      · simp [h]
      · simp [ih h]

theorem keys_nodup_aset {α β : Type} [DecidableEq α] {l : List (α × β)} (k : α) (v : β)
    (h : (l.map Prod.fst).Nodup) : ((aset l k v).map Prod.fst).Nodup := by
  induction l with
  | nil => simp [aset]
  | cons hd tl ih =>
    obtain ⟨k0, v0⟩ := hd
    simp at h
    by_cases hk : k0 = k
    · subst hk
      simp [aset]
      exact ⟨fun b hb => h.1 b hb, h.2⟩
    · simp [aset, hk]
      refine ⟨fun b hb => ?_, ih h.2⟩
      rcases mem_aset hb with he | he
      · exact hk (congrArg Prod.fst he)
      · exact h.1 b he

theorem keys_nodup_adel {α β : Type} [DecidableEq α] {l : List (α × β)} (k : α)
    (h : (l.map Prod.fst).Nodup) : ((adel l k).map Prod.fst).Nodup := by
  induction l with
  | nil => simp [adel]
  | cons hd tl ih =>
    obtain ⟨k0, v0⟩ := hd
    simp at h
    by_cases hk : k0 = k
    · subst hk
      simpa [adel] using h.2
    · simp [adel, hk]
      exact ⟨fun b hb => h.1 b (mem_adel hb), ih h.2⟩

theorem alookup_filter_keep {α β : Type} [DecidableEq α] {l : List (α × β)} {k : α} {v : β}
    (f : α × β → Bool) (h : alookup l k = some v) (hf : f (k, v) = true) :
    alookup (l.filter f) k = some v := by
  induction l with
  | nil => simp [alookup] at h
  | cons hd tl ih =>
    obtain ⟨k0, v0⟩ := hd
    by_cases hk : k0 = k
    · subst hk
      simp [alookup] at h
      subst h
      simp [List.filter, hf, alookup]
    · simp [alookup, hk] at h
      cases hf0 : f (k0, v0) <;> simp [List.filter, hf0, alookup, hk, ih h]

theorem alookup_filter_sound {α β : Type} [DecidableEq α] {l : List (α × β)} {k : α} {v : β}
    (f : α × β → Bool) (h : alookup (l.filter f) k = some v) : f (k, v) = true :=
  (List.mem_filter.mp (alookup_mem h)).2

/-! ### Character class facts -/

theorem upperByte_idem (c : Nat) : upperByte (upperByte c) = upperByte c := by
  unfold upperByte
  split_ifs <;> omega

theorem pyUpper_idem (s : List Nat) : pyUpper (pyUpper s) = pyUpper s := by
  unfold pyUpper
  rw [List.map_map]
  exact List.map_congr_left (fun c _ => upperByte_idem c)

theorem pyUpper_append (a b : List Nat) : pyUpper (a ++ b) = pyUpper a ++ pyUpper b :=
  List.map_append upperByte a b

theorem natStrAux_digits (fuel : Nat) : ∀ n c, c ∈ natStrAux fuel n → 48 ≤ c ∧ c ≤ 57 := by
  induction fuel with
  | zero => intro n c hc; simp [natStrAux] at hc
  | succ fuel ih =>
    intro n c hc
    unfold natStrAux at hc
    by_cases hn : n < 10
    · simp [hn] at hc
      omega
    · simp [hn] at hc
      rcases hc with hc | hc
      · exact ih _ _ hc
      · have : n % 10 < 10 := Nat.mod_lt n (by omega)
        omega

theorem intStr_chars (i : Int) (c : Nat) (hc : c ∈ intStr i) :
    c = 45 ∨ (48 ≤ c ∧ c ≤ 57) := by
  unfold intStr at hc
  by_cases hi : i < 0
  · simp [hi] at hc
    rcases hc with hc | hc
    · left; exact hc
    · right; exact natStrAux_digits _ _ _ hc
  · simp [hi] at hc
    right
    exact natStrAux_digits _ _ _ hc

theorem pyUpper_intStr (i : Int) : pyUpper (intStr i) = intStr i := by
  unfold pyUpper
  rw [show intStr i = (intStr i).map id by simp]
  rw [List.map_map]
  refine List.map_congr_left (fun c hc => ?_)
  have := intStr_chars i c (by simpa using hc)
  unfold upperByte
  simp only [Function.comp, id]
  split_ifs with h
  · omega
  · rfl

theorem sep_not_mem_intStr (i : Int) : 46 ∉ intStr i ∧ 58 ∉ intStr i := by
  constructor <;> intro hc <;> rcases intStr_chars i _ hc with h | h <;> omega

/-! ### The strengthened invariant and its preservation -/

/-- Bookkeeping: dict keys are unique and references are below the
    allocation counter. -/
def WFSt (st : MState) : Prop :=
  (st.entries.map Prod.fst).Nodup ∧ ∀ e ∈ st.entries, e.2 < st.fresh

/-- Strengthened invariant: every stored group object has an id key and an
    upper-cased, separator-free name that is a key for it. -/
def GoodSt (st : MState) : Prop :=
  ∀ e ∈ st.entries,
    (∃ i : Int, alookup st.entries (MKey.id i) = some e.2) ∧
    (∃ g nm, alookup st.heap e.2 = some g ∧ g.gname = some nm ∧
      nm = pyUpper nm ∧ 46 ∉ nm ∧ 58 ∉ nm ∧
      alookup st.entries (MKey.name nm) = some e.2)

theorem managerGet_of_plain_name (st : MState) (nm : List Nat) (ref : Nat)
    (hup : nm = pyUpper nm) (h46 : 46 ∉ nm) (h58 : 58 ∉ nm)
    (hlook : alookup st.entries (MKey.name nm) = some ref) :
    managerGet st (Sum.inr nm) = some (Entity.group ref) := by
  simp only [managerGet, managerGetStr]
  rw [← hup]
  simp [h46, h58, hlook]

/-- Invariant data for a fully registered (named) group. -/
def NamedGoodAt (st : MState) (ref : Nat) : Prop :=
  (∃ i : Int, alookup st.entries (MKey.id i) = some ref) ∧
  (∃ g nm, alookup st.heap ref = some g ∧ g.gname = some nm ∧
    nm = pyUpper nm ∧ 46 ∉ nm ∧ 58 ∉ nm ∧
    alookup st.entries (MKey.name nm) = some ref)

/-- Invariant data for an unnamed placeholder created by the Reader's
    parameter walk: reachable by an integer key, no name yet. -/
def PlaceholderAt (st : MState) (ref : Nat) : Prop :=
  (∃ i : Int, alookup st.entries (MKey.id i) = some ref) ∧
  (∃ g, alookup st.heap ref = some g ∧ g.gname = none)

theorem goodSt_def (st : MState) :
    GoodSt st ↔ ∀ e ∈ st.entries, NamedGoodAt st e.2 := Iff.rfl

theorem namedGood_dualKey (st : MState) (r : Nat) (h : NamedGoodAt st r) :
    idKeyForB st r = true ∧ nameKeyForB st r = true := by
  obtain ⟨⟨i, hid⟩, ⟨g, nm, hheap, hgname, hup, h46, h58, hname⟩⟩ := h
  constructor
  · unfold idKeyForB
    rw [List.any_eq_true]
    refine ⟨(MKey.id i, r), alookup_mem hid, ?_⟩
    simp [MKey.isIdKey, hid]
  · simp only [nameKeyForB, hheap, hgname]
    simp [managerGet_of_plain_name st nm r hup h46 h58 hname]

theorem goodSt_dualKeyInv (st : MState) (hg : GoodSt st) : dualKeyInvB st = true := by
  unfold dualKeyInvB
  rw [List.all_eq_true]
  intro e he
  have h12 := namedGood_dualKey st e.2 (hg e he)
  simp [h12.1, h12.2]

theorem good_add_new (st : MState) (i : Int) (nm2 : List Nat)
    (hg : GoodSt st) (hw : WFSt st)
    (hup : nm2 = pyUpper nm2) (h46 : 46 ∉ nm2) (h58 : 58 ∉ nm2)
    (hid : alookup st.entries (MKey.id i) = none)
    (hnm : alookup st.entries (MKey.name nm2) = none) :
    GoodSt ⟨aset (aset st.entries (MKey.name nm2) st.fresh) (MKey.id i) st.fresh,
            aset st.heap st.fresh ⟨some nm2, []⟩, st.fresh + 1⟩ ∧
    WFSt ⟨aset (aset st.entries (MKey.name nm2) st.fresh) (MKey.id i) st.fresh,
          aset st.heap st.fresh ⟨some nm2, []⟩, st.fresh + 1⟩ := by
  set f := st.fresh with hf
  set E2 := aset (aset st.entries (MKey.name nm2) f) (MKey.id i) f with hE2
  have hlookId : alookup E2 (MKey.id i) = some f := alookup_aset_self ..
  have hlookNm : alookup E2 (MKey.name nm2) = some f := by
    rw [hE2, alookup_aset_ne _ _ _ _ (by simp), alookup_aset_self]
  have hpres : ∀ k, k ≠ MKey.id i → k ≠ MKey.name nm2 →
      alookup E2 k = alookup st.entries k := by
    intro k hk1 hk2
    rw [hE2, alookup_aset_ne _ _ _ _ hk1, alookup_aset_ne _ _ _ _ hk2]
  have hheapf : alookup (aset st.heap f ⟨some nm2, []⟩) f = some ⟨some nm2, []⟩ :=
    alookup_aset_self ..
  have hheappres : ∀ r, r ≠ f → alookup (aset st.heap f ⟨some nm2, []⟩) r = alookup st.heap r :=
    fun r hr => alookup_aset_ne _ _ _ _ hr
  constructor
  · intro e he
    rcases mem_aset he with rfl | he1
    · exact ⟨⟨i, hlookId⟩, ⟨⟨some nm2, []⟩, nm2, hheapf, rfl, hup, h46, h58, hlookNm⟩⟩
    · rcases mem_aset he1 with rfl | he2
      · exact ⟨⟨i, hlookId⟩, ⟨⟨some nm2, []⟩, nm2, hheapf, rfl, hup, h46, h58, hlookNm⟩⟩
      · have hlt : e.2 < f := hw.2 e he2
        obtain ⟨⟨i2, hid2⟩, ⟨g2, nm2', hheap2, hgn2, hup2, h462, h582, hname2⟩⟩ := hg e he2
        have hii : MKey.id i2 ≠ MKey.id i := by
          intro hc
          rw [hc, hid] at hid2
          exact Option.noConfusion hid2
        have hnn : MKey.name nm2' ≠ MKey.name nm2 := by
          intro hc
          rw [hc, hnm] at hname2
          exact Option.noConfusion hname2
        refine ⟨⟨i2, ?_⟩, ⟨g2, nm2', ?_, hgn2, hup2, h462, h582, ?_⟩⟩
        · rw [hpres _ hii (by simp)]
          exact hid2
        · rw [hheappres _ (by omega)]
          exact hheap2
        · rw [hpres _ (by simp) hnn]
          exact hname2
  · refine ⟨keys_nodup_aset _ _ (keys_nodup_aset _ _ hw.1), ?_⟩
    intro e he
    rcases mem_aset he with rfl | he1
    · exact Nat.lt_succ_self f
    · rcases mem_aset he1 with rfl | he2
      · exact Nat.lt_succ_self f
      · exact Nat.lt_succ_of_lt (hw.2 e he2)

theorem good_rename_name (st : MState) (o : MKey) (s : List Nat) (ref : Nat)
    (hg : GoodSt st) (hw : WFSt st)
    (hlo : alookup st.entries o = some ref)
    (hnl : alookup st.entries (MKey.name s) = none)
    (hups : s = pyUpper s) (h46s : 46 ∉ s) (h58s : 58 ∉ s)
    (g0 : GroupD) (nm0 : List Nat)
    (hheap0 : alookup st.heap ref = some g0) (hgn0 : g0.gname = some nm0)
    (hname0 : alookup st.entries (MKey.name nm0) = some ref) :
    GoodSt ⟨aset (adel st.entries (MKey.name nm0)) (MKey.name s) ref,
            aset st.heap ref { g0 with gname := some s }, st.fresh⟩ ∧
    WFSt ⟨aset (adel st.entries (MKey.name nm0)) (MKey.name s) ref,
          aset st.heap ref { g0 with gname := some s }, st.fresh⟩ := by
  obtain ⟨⟨i0, hid0⟩, _⟩ := hg _ (alookup_mem hlo)
  set E2 := aset (adel st.entries (MKey.name nm0)) (MKey.name s) ref with hE2
  have hlookS : alookup E2 (MKey.name s) = some ref := alookup_aset_self ..
  have hpres : ∀ k, k ≠ MKey.name s → k ≠ MKey.name nm0 →
      alookup E2 k = alookup st.entries k := by
    intro k hk1 hk2
    rw [hE2, alookup_aset_ne _ _ _ _ hk1, alookup_adel_ne _ _ _ hk2]
  have hlookId : alookup E2 (MKey.id i0) = some ref := by
    rw [hpres _ (by simp) (by simp)]
    exact hid0
  have hheapref : alookup (aset st.heap ref { g0 with gname := some s }) ref
      = some { g0 with gname := some s } := alookup_aset_self ..
  have hheappres : ∀ r, r ≠ ref →
      alookup (aset st.heap ref { g0 with gname := some s }) r = alookup st.heap r :=
    fun r hr => alookup_aset_ne _ _ _ _ hr
  constructor
  · intro e he
    by_cases hv : e.2 = ref
    · rw [hv]
      exact ⟨⟨i0, hlookId⟩, ⟨{ g0 with gname := some s }, s, hheapref, rfl,
        hups, h46s, h58s, hlookS⟩⟩
    · have he2 : e ∈ st.entries := by
        rcases mem_aset he with rfl | he1
        · exact absurd rfl hv
        · exact mem_adel he1
      obtain ⟨⟨i2, hid2⟩, ⟨g2, nm2, hheap2, hgn2, hup2, h462, h582, hname2⟩⟩ := hg e he2
      have hnsne : MKey.name nm2 ≠ MKey.name s := by
        intro hc
        rw [hc, hnl] at hname2
        exact Option.noConfusion hname2
      have hn0ne : MKey.name nm2 ≠ MKey.name nm0 := by
        intro hc
        rw [hc, hname0] at hname2
        exact hv (Option.some.inj hname2).symm
      refine ⟨⟨i2, ?_⟩, ⟨g2, nm2, ?_, hgn2, hup2, h462, h582, ?_⟩⟩
      · rw [hpres _ (by simp) (by simp)]
        exact hid2
      · rw [hheappres _ hv]
        exact hheap2
      · rw [hpres _ hnsne hn0ne]
        exact hname2
  · refine ⟨keys_nodup_aset _ _ (keys_nodup_adel _ hw.1), ?_⟩
    intro e he
    rcases mem_aset he with rfl | he1
    · exact hw.2 (o, ref) (alookup_mem hlo)
    · exact hw.2 e (mem_adel he1)

theorem good_rename_id (st : MState) (j i : Int) (ref : Nat)
    (hg : GoodSt st) (hw : WFSt st)
    (hlo : alookup st.entries (MKey.id j) = some ref)
    (hnl : alookup st.entries (MKey.id i) = none) :
    GoodSt ⟨aset (adel st.entries (MKey.id j)) (MKey.id i) ref, st.heap, st.fresh⟩ ∧
    WFSt ⟨aset (adel st.entries (MKey.id j)) (MKey.id i) ref, st.heap, st.fresh⟩ := by
  obtain ⟨_, ⟨g0, nm0, hheap0, hgn0, hup0, h460, h580, hname0⟩⟩ := hg _ (alookup_mem hlo)
  set E2 := aset (adel st.entries (MKey.id j)) (MKey.id i) ref with hE2
  have hlookI : alookup E2 (MKey.id i) = some ref := alookup_aset_self ..
  have hpres : ∀ k, k ≠ MKey.id i → k ≠ MKey.id j →
      alookup E2 k = alookup st.entries k := by
    intro k hk1 hk2
    rw [hE2, alookup_aset_ne _ _ _ _ hk1, alookup_adel_ne _ _ _ hk2]
  have hlookNm : alookup E2 (MKey.name nm0) = some ref := by
    rw [hpres _ (by simp) (by simp)]
    exact hname0
  constructor
  · intro e he
    by_cases hv : e.2 = ref
    · rw [hv]
      exact ⟨⟨i, hlookI⟩, ⟨g0, nm0, hheap0, hgn0, hup0, h460, h580, hlookNm⟩⟩
    · have he2 : e ∈ st.entries := by
        rcases mem_aset he with rfl | he1
        · exact absurd rfl hv
        · exact mem_adel he1
      obtain ⟨⟨i2, hid2⟩, ⟨g2, nm2, hheap2, hgn2, hup2, h462, h582, hname2⟩⟩ := hg e he2
      have hine : MKey.id i2 ≠ MKey.id i := by
        intro hc
        rw [hc, hnl] at hid2
        exact Option.noConfusion hid2
      have hjne : MKey.id i2 ≠ MKey.id j := by
        intro hc
        rw [hc, hlo] at hid2
        exact hv (Option.some.inj hid2).symm
      refine ⟨⟨i2, ?_⟩, ⟨g2, nm2, hheap2, hgn2, hup2, h462, h582, ?_⟩⟩
      · rw [hpres _ hine hjne]
        exact hid2
      · rw [hpres _ (by simp) (by simp)]
        exact hname2
  · refine ⟨keys_nodup_aset _ _ (keys_nodup_adel _ hw.1), ?_⟩
    intro e he
    rcases mem_aset he with rfl | he1
    · exact hw.2 (MKey.id j, ref) (alookup_mem hlo)
    · exact hw.2 e (mem_adel he1)

theorem good_applyOp (st : MState) (op : MOp) (hg : GoodSt st) (hw : WFSt st)
    (hguard : opGuardB st op = true) :
    GoodSt (applyOp st op) ∧ WFSt (applyOp st op) := by
  cases op with
  | add i nm rd =>
    simp only [opGuardB, Bool.and_eq_true, decide_eq_true_eq] at hguard
    obtain ⟨⟨h46, h58⟩, hsyn0⟩ := hguard
    simp only [applyOp, addGroup]
    cases hid : alookup st.entries (MKey.id i) with
    | some r =>
      simp only [hid, Option.isSome_some, if_true, Option.getD_none]
      exact ⟨hg, hw⟩
    | none =>
      cases hnm : alookup st.entries (MKey.name (pyUpper nm)) with
      | some r =>
        cases rd with
        | false =>
          simp only [hid, hnm, Option.isSome_none, Bool.false_eq_true, if_false,
            Option.getD_none]
          exact ⟨hg, hw⟩
        | true =>
          have hsyn : alookup st.entries (MKey.name (pyUpper nm ++ intStr i)) = none := by
            rw [hnm] at hsyn0
            simpa using hsyn0
          simp only [hid, hnm, Option.isSome_none, Bool.false_eq_true, if_false,
            if_true, Option.getD_some]
          exact good_add_new st i (pyUpper nm ++ intStr i) hg hw
            (by rw [pyUpper_append, pyUpper_idem, pyUpper_intStr])
            (fun hc => (List.mem_append.mp hc).elim (fun h => h46 h)
              (fun h => (sep_not_mem_intStr i).1 h))
            (fun hc => (List.mem_append.mp hc).elim (fun h => h58 h)
              (fun h => (sep_not_mem_intStr i).2 h))
            hid hsyn
      | none =>
        simp only [hid, hnm, Option.isSome_none, Bool.false_eq_true, if_false,
          Option.getD_some]
        exact good_add_new st i (pyUpper nm) hg hw (pyUpper_idem nm).symm h46 h58 hid hnm
  | remove k =>
    simp only [applyOp, removeGroup]
    cases hlk : alookup st.entries k with
    | none => exact ⟨hg, hw⟩
    | some ref0 =>
      constructor
      · intro e he
        have hmem := List.mem_filter.mp he
        have hne : e.2 ≠ ref0 := by simpa using hmem.2
        obtain ⟨⟨i2, hid2⟩, ⟨g2, nm2, hheap2, hgn2, hup2, h462, h582, hname2⟩⟩ :=
          hg e hmem.1
        exact ⟨⟨i2, alookup_filter_keep _ hid2 (by simpa using hne)⟩,
          ⟨g2, nm2, hheap2, hgn2, hup2, h462, h582,
            alookup_filter_keep _ hname2 (by simpa using hne)⟩⟩
      · refine ⟨?_, ?_⟩
        · exact ((List.filter_sublist _).map Prod.fst).nodup hw.1
        · intro e he
          exact hw.2 e (List.mem_filter.mp he).1
  | rename o n =>
    simp only [applyOp, renameGroup]
    cases hlo : alookup st.entries o with
    | none => exact ⟨hg, hw⟩
    | some ref =>
      cases hnl : alookup st.entries n with
      | some v =>
        by_cases heq : n = o
        · simp only [hnl, Option.isSome_some, if_true, heq, Option.getD_some]
          exact ⟨hg, hw⟩
        · simp only [hnl, Option.isSome_some, if_true, if_neg heq, Option.getD_none]
          exact ⟨hg, hw⟩
      | none =>
        cases n with
        | name s =>
          simp only [opGuardB, Bool.and_eq_true, decide_eq_true_eq, beq_iff_eq] at hguard
          obtain ⟨⟨hups, h46s⟩, h58s⟩ := hguard
          obtain ⟨_, ⟨g0, nm0, hheap0, hgn0, hup0, h460, h580, hname0⟩⟩ :=
            hg _ (alookup_mem hlo)
          simp only [hnl, Option.isSome_none, Bool.false_eq_true, if_false,
            hheap0, hgn0, hname0, Option.isSome_some, if_true, Option.getD_some]
          exact good_rename_name st o s ref hg hw hlo hnl hups h46s h58s g0 nm0
            hheap0 hgn0 hname0
        | id i =>
          cases o with
          | name s2 => simp [opGuardB, MKey.isIdKey] at hguard
          | id j =>
            simp only [hnl, Option.isSome_none, Bool.false_eq_true, if_false,
              Option.getD_some]
            exact good_rename_id st j i ref hg hw hlo hnl

theorem good_applyOps (ops : List MOp) : ∀ st : MState, GoodSt st → WFSt st →
    guardedB st ops = true → GoodSt (applyOps st ops) ∧ WFSt (applyOps st ops) := by
  induction ops with
  | nil =>
    intro st hg hw _
    exact ⟨hg, hw⟩
  | cons op ops ih =>
    intro st hg hw hguard
    simp only [guardedB, Bool.and_eq_true] at hguard
    have hstep := good_applyOp st op hg hw hguard.1
    exact ih _ hstep.1 hstep.2 hguard.2

/-! ### Reader construction: the parameter walk

`Reader.__init__` populates the dictionary from parameter records
(`self._groups.setdefault(group_id, Group(self._dtypes)).add_param(...)`,
which creates an unnamed placeholder under the integer key alone when the id
is new) and group records (`self.rename_group(group, name)` when the id
already exists, else
`self.add_group(group_id, name, desc, rename_duplicated_groups=True)`); the
walk upper-cases every record name before use.  Group descriptions do not
participate in the key invariant and are not modelled; a raised error aborts
construction in Python and leaves the state unchanged here. -/

/-- One parameter record: `setdefault` then `add_param` (which upper-cases
    the parameter name). -/
def setdefaultAddParam (st : MState) (gid : Int) (pname : List Nat) (pd : ParamD) :
    MState :=
  match alookup st.entries (MKey.id gid) with
  | some ref =>
      match alookup st.heap ref with
      | some g =>
          { st with heap := aset st.heap ref ⟨g.gname, aset g.params (pyUpper pname) pd⟩ }
      | none => st
  | none =>
      { entries := aset st.entries (MKey.id gid) st.fresh,
        heap := aset st.heap st.fresh ⟨none, [(pyUpper pname, pd)]⟩,
        fresh := st.fresh + 1 }

/-- One group record (name `nm` already upper-cased by the walk): rename the
    existing entry — the walk passes the group object, which is keyed by its
    integer id — or add a new group with duplicate renaming enabled. -/
def readerGroupRecord (st : MState) (gid : Int) (nm : List Nat) : MState :=
  match alookup st.entries (MKey.id gid) with
  | some _ => (renameGroup st (MKey.id gid) (MKey.name nm)).getD st
  | none => (addGroup st gid nm true).getD st

inductive ROp where
  | paramRec : Int → List Nat → ParamD → ROp
  | groupRec : Int → List Nat → ROp
deriving DecidableEq, Repr

def applyROp (st : MState) : ROp → MState
  | ROp.paramRec gid pname pd => setdefaultAddParam st gid pname pd
  | ROp.groupRec gid nm => readerGroupRecord st gid nm

def applyROps (st : MState) : List ROp → MState
  | [] => st
  | op :: ops => applyROps (applyROp st op) ops

/-- Guard for the Reader clause of the amended C5: group-record names are
    upper-cased (the walk guarantees this) and separator-free, and when the
    duplicate-renaming path is taken the synthesized name does not collide
    with an existing key. -/
def rGuardB (st : MState) : ROp → Bool
  | ROp.paramRec _ _ _ => true
  | ROp.groupRec gid nm =>
      (nm == pyUpper nm) && (46 ∉ nm : Bool) && (58 ∉ nm : Bool) &&
      (if (alookup st.entries (MKey.id gid)).isSome = false ∧
          (alookup st.entries (MKey.name nm)).isSome then
        alookup st.entries (MKey.name (nm ++ intStr gid)) == none
      else true)

def rGuardedB (st : MState) : List ROp → Bool
  | [] => true
  | op :: ops => rGuardB st op && rGuardedB (applyROp st op) ops

/-- Walk invariant: every stored group is fully dual-keyed or an unnamed
    placeholder. -/
def GoodW (st : MState) : Prop :=
  ∀ e ∈ st.entries, NamedGoodAt st e.2 ∨ PlaceholderAt st e.2

/-- After construction no unnamed placeholder remains (every group id
    referenced by a parameter also received a group declaration). -/
def noUnnamedB (st : MState) : Bool :=
  st.entries.all (fun e =>
    match alookup st.heap e.2 with
    | some g => g.gname.isSome
    | none => false)

theorem goodW_dualKeyInv (st : MState) (hg : GoodW st) (hnu : noUnnamedB st = true) :
    dualKeyInvB st = true := by
  unfold dualKeyInvB
  rw [List.all_eq_true]
  intro e he
  rcases hg e he with hnamed | hplace
  · have h12 := namedGood_dualKey st e.2 hnamed
    simp [h12.1, h12.2]
  · obtain ⟨_, g, hheap, hgn⟩ := hplace
    rw [noUnnamedB, List.all_eq_true] at hnu
    have hcontra := hnu e he
    simp [hheap, hgn] at hcontra

theorem goodW_setdefault_param (st : MState) (ref : Nat) (g : GroupD)
    (params2 : List (List Nat × ParamD)) (hg : GoodW st) (hw : WFSt st)
    (hheapr : alookup st.heap ref = some g) :
    GoodW { st with heap := aset st.heap ref { g with params := params2 } } ∧
    WFSt { st with heap := aset st.heap ref { g with params := params2 } } := by
  refine ⟨?_, hw⟩
  intro e he
  have hpres : ∀ r, r ≠ ref →
      alookup (aset st.heap ref { g with params := params2 }) r = alookup st.heap r :=
    fun r hr => alookup_aset_ne _ _ _ _ hr
  rcases hg e he with ⟨hid2, ⟨g2, nm2, hheap2, hgn2, hup2, h462, h582, hname2⟩⟩ |
    ⟨hid2, ⟨g2, hheap2, hgn2⟩⟩
  · left
    by_cases hv : e.2 = ref
    · have hgg : g2 = g := by
        rw [hv] at hheap2
        exact Option.some.inj (hheap2.symm.trans hheapr)
      refine ⟨hid2, ⟨{ g with params := params2 }, nm2, ?_, ?_, hup2, h462, h582, hname2⟩⟩
      · rw [hv]
        exact alookup_aset_self ..
      · show g.gname = some nm2
        rw [← hgg]
        exact hgn2
    · exact ⟨hid2, ⟨g2, nm2, by rw [hpres _ hv]; exact hheap2, hgn2, hup2, h462, h582,
        hname2⟩⟩
  · right
    by_cases hv : e.2 = ref
    · have hgg : g2 = g := by
        rw [hv] at hheap2
        exact Option.some.inj (hheap2.symm.trans hheapr)
      refine ⟨hid2, ⟨{ g with params := params2 }, ?_, ?_⟩⟩
      · rw [hv]
        exact alookup_aset_self ..
      · show g.gname = none
        rw [← hgg]
        exact hgn2
    · exact ⟨hid2, ⟨g2, by rw [hpres _ hv]; exact hheap2, hgn2⟩⟩

theorem goodW_setdefault_new (st : MState) (gid : Int) (pname : List Nat) (pd : ParamD)
    (hg : GoodW st) (hw : WFSt st)
    (hid : alookup st.entries (MKey.id gid) = none) :
    GoodW ⟨aset st.entries (MKey.id gid) st.fresh,
           aset st.heap st.fresh ⟨none, [(pyUpper pname, pd)]⟩, st.fresh + 1⟩ ∧
    WFSt ⟨aset st.entries (MKey.id gid) st.fresh,
          aset st.heap st.fresh ⟨none, [(pyUpper pname, pd)]⟩, st.fresh + 1⟩ := by
  set f := st.fresh with hf
  set E2 := aset st.entries (MKey.id gid) f with hE2
  have hlookId : alookup E2 (MKey.id gid) = some f := alookup_aset_self ..
  have hpres : ∀ k, k ≠ MKey.id gid → alookup E2 k = alookup st.entries k :=
    fun k hk => alookup_aset_ne _ _ _ _ hk
  have hheapf : alookup (aset st.heap f ⟨none, [(pyUpper pname, pd)]⟩) f
      = some ⟨none, [(pyUpper pname, pd)]⟩ := alookup_aset_self ..
  have hheappres : ∀ r, r ≠ f →
      alookup (aset st.heap f ⟨none, [(pyUpper pname, pd)]⟩) r = alookup st.heap r :=
    fun r hr => alookup_aset_ne _ _ _ _ hr
  constructor
  · intro e he
    rcases mem_aset he with rfl | he2
    · right
      exact ⟨⟨gid, hlookId⟩, ⟨⟨none, [(pyUpper pname, pd)]⟩, hheapf, rfl⟩⟩
    · have hlt : e.2 < f := hw.2 e he2
      rcases hg e he2 with ⟨⟨i2, hid2⟩, ⟨g2, nm2, hheap2, hgn2, hup2, h462, h582, hname2⟩⟩ |
        ⟨⟨i2, hid2⟩, ⟨g2, hheap2, hgn2⟩⟩
      · left
        have hii : MKey.id i2 ≠ MKey.id gid := by
          intro hc
          rw [hc, hid] at hid2
          exact Option.noConfusion hid2
        exact ⟨⟨i2, by rw [hpres _ hii]; exact hid2⟩,
          ⟨g2, nm2, by rw [hheappres _ (by omega)]; exact hheap2, hgn2, hup2, h462, h582,
            by rw [hpres _ (by simp)]; exact hname2⟩⟩
      · right
        have hii : MKey.id i2 ≠ MKey.id gid := by
          intro hc
          rw [hc, hid] at hid2
          exact Option.noConfusion hid2
        exact ⟨⟨i2, by rw [hpres _ hii]; exact hid2⟩,
          ⟨g2, by rw [hheappres _ (by omega)]; exact hheap2, hgn2⟩⟩
  · refine ⟨keys_nodup_aset _ _ hw.1, ?_⟩
    intro e he
    rcases mem_aset he with rfl | he2
    · exact Nat.lt_succ_self f
    · exact Nat.lt_succ_of_lt (hw.2 e he2)

theorem goodW_add_new (st : MState) (i : Int) (nm2 : List Nat)
    (hg : GoodW st) (hw : WFSt st)
    (hup : nm2 = pyUpper nm2) (h46 : 46 ∉ nm2) (h58 : 58 ∉ nm2)
    (hid : alookup st.entries (MKey.id i) = none)
    (hnm : alookup st.entries (MKey.name nm2) = none) :
    GoodW ⟨aset (aset st.entries (MKey.name nm2) st.fresh) (MKey.id i) st.fresh,
           aset st.heap st.fresh ⟨some nm2, []⟩, st.fresh + 1⟩ ∧
    WFSt ⟨aset (aset st.entries (MKey.name nm2) st.fresh) (MKey.id i) st.fresh,
          aset st.heap st.fresh ⟨some nm2, []⟩, st.fresh + 1⟩ := by
  set f := st.fresh with hf
  set E2 := aset (aset st.entries (MKey.name nm2) f) (MKey.id i) f with hE2
  have hlookId : alookup E2 (MKey.id i) = some f := alookup_aset_self ..
  have hlookNm : alookup E2 (MKey.name nm2) = some f := by
    rw [hE2, alookup_aset_ne _ _ _ _ (by simp), alookup_aset_self]
  have hpres : ∀ k, k ≠ MKey.id i → k ≠ MKey.name nm2 →
      alookup E2 k = alookup st.entries k := by
    intro k hk1 hk2
    rw [hE2, alookup_aset_ne _ _ _ _ hk1, alookup_aset_ne _ _ _ _ hk2]
  have hheapf : alookup (aset st.heap f ⟨some nm2, []⟩) f = some ⟨some nm2, []⟩ :=
    alookup_aset_self ..
  have hheappres : ∀ r, r ≠ f →
      alookup (aset st.heap f ⟨some nm2, []⟩) r = alookup st.heap r :=
    fun r hr => alookup_aset_ne _ _ _ _ hr
  constructor
  · intro e he
    rcases mem_aset he with rfl | he1
    · exact Or.inl ⟨⟨i, hlookId⟩, ⟨⟨some nm2, []⟩, nm2, hheapf, rfl, hup, h46, h58, hlookNm⟩⟩
    · rcases mem_aset he1 with rfl | he2
      · exact Or.inl ⟨⟨i, hlookId⟩, ⟨⟨some nm2, []⟩, nm2, hheapf, rfl, hup, h46, h58,
          hlookNm⟩⟩
      · have hlt : e.2 < f := hw.2 e he2
        rcases hg e he2 with ⟨⟨i2, hid2⟩, ⟨g2, nm2', hheap2, hgn2, hup2, h462, h582, hname2⟩⟩ |
          ⟨⟨i2, hid2⟩, ⟨g2, hheap2, hgn2⟩⟩
        · left
          have hii : MKey.id i2 ≠ MKey.id i := by
            intro hc
            rw [hc, hid] at hid2
            exact Option.noConfusion hid2
          have hnn : MKey.name nm2' ≠ MKey.name nm2 := by
            intro hc
            rw [hc, hnm] at hname2
            exact Option.noConfusion hname2
          exact ⟨⟨i2, by rw [hpres _ hii (by simp)]; exact hid2⟩,
            ⟨g2, nm2', by rw [hheappres _ (by omega)]; exact hheap2, hgn2, hup2, h462, h582,
              by rw [hpres _ (by simp) hnn]; exact hname2⟩⟩
        · right
          have hii : MKey.id i2 ≠ MKey.id i := by
            intro hc
            rw [hc, hid] at hid2
            exact Option.noConfusion hid2
          exact ⟨⟨i2, by rw [hpres _ hii (by simp)]; exact hid2⟩,
            ⟨g2, by rw [hheappres _ (by omega)]; exact hheap2, hgn2⟩⟩
  · refine ⟨keys_nodup_aset _ _ (keys_nodup_aset _ _ hw.1), ?_⟩
    intro e he
    rcases mem_aset he with rfl | he1
    · exact Nat.lt_succ_self f
    · rcases mem_aset he1 with rfl | he2
      · exact Nat.lt_succ_self f
      · exact Nat.lt_succ_of_lt (hw.2 e he2)

theorem goodW_rename_named (st : MState) (gid : Int) (s : List Nat) (ref : Nat)
    (hg : GoodW st) (hw : WFSt st)
    (hlo : alookup st.entries (MKey.id gid) = some ref)
    (hnl : alookup st.entries (MKey.name s) = none)
    (hups : s = pyUpper s) (h46s : 46 ∉ s) (h58s : 58 ∉ s)
    (g0 : GroupD) (nm0 : List Nat)
    (hheap0 : alookup st.heap ref = some g0) (hgn0 : g0.gname = some nm0)
    (hname0 : alookup st.entries (MKey.name nm0) = some ref) :
    GoodW ⟨aset (adel st.entries (MKey.name nm0)) (MKey.name s) ref,
           aset st.heap ref { g0 with gname := some s }, st.fresh⟩ ∧
    WFSt ⟨aset (adel st.entries (MKey.name nm0)) (MKey.name s) ref,
          aset st.heap ref { g0 with gname := some s }, st.fresh⟩ := by
  set E2 := aset (adel st.entries (MKey.name nm0)) (MKey.name s) ref with hE2
  have hlookS : alookup E2 (MKey.name s) = some ref := alookup_aset_self ..
  have hpres : ∀ k, k ≠ MKey.name s → k ≠ MKey.name nm0 →
      alookup E2 k = alookup st.entries k := by
    intro k hk1 hk2
    rw [hE2, alookup_aset_ne _ _ _ _ hk1, alookup_adel_ne _ _ _ hk2]
  have hlookId : alookup E2 (MKey.id gid) = some ref := by
    rw [hpres _ (by simp) (by simp)]
    exact hlo
  have hheapref : alookup (aset st.heap ref { g0 with gname := some s }) ref
      = some { g0 with gname := some s } := alookup_aset_self ..
  have hheappres : ∀ r, r ≠ ref →
      alookup (aset st.heap ref { g0 with gname := some s }) r = alookup st.heap r :=
    fun r hr => alookup_aset_ne _ _ _ _ hr
  constructor
  · intro e he
    by_cases hv : e.2 = ref
    · left
      rw [hv]
      exact ⟨⟨gid, hlookId⟩, ⟨{ g0 with gname := some s }, s, hheapref, rfl, hups,
        h46s, h58s, hlookS⟩⟩
    · have he2 : e ∈ st.entries := by
        rcases mem_aset he with rfl | he1
        · exact absurd rfl hv
        · exact mem_adel he1
      rcases hg e he2 with ⟨⟨i2, hid2⟩, ⟨g2, nm2, hheap2, hgn2, hup2, h462, h582, hname2⟩⟩ |
        ⟨⟨i2, hid2⟩, ⟨g2, hheap2, hgn2⟩⟩
      · left
        have hnsne : MKey.name nm2 ≠ MKey.name s := by
          intro hc
          rw [hc, hnl] at hname2
          exact Option.noConfusion hname2
        have hn0ne : MKey.name nm2 ≠ MKey.name nm0 := by
          intro hc
          rw [hc, hname0] at hname2
          exact hv (Option.some.inj hname2).symm
        exact ⟨⟨i2, by rw [hpres _ (by simp) (by simp)]; exact hid2⟩,
          ⟨g2, nm2, by rw [hheappres _ hv]; exact hheap2, hgn2, hup2, h462, h582,
            by rw [hpres _ hnsne hn0ne]; exact hname2⟩⟩
      · right
        exact ⟨⟨i2, by rw [hpres _ (by simp) (by simp)]; exact hid2⟩,
          ⟨g2, by rw [hheappres _ hv]; exact hheap2, hgn2⟩⟩
  · refine ⟨keys_nodup_aset _ _ (keys_nodup_adel _ hw.1), ?_⟩
    intro e he
    rcases mem_aset he with rfl | he1
    · exact hw.2 (MKey.id gid, ref) (alookup_mem hlo)
    · exact hw.2 e (mem_adel he1)

theorem goodW_rename_placeholder (st : MState) (gid : Int) (s : List Nat) (ref : Nat)
    (hg : GoodW st) (hw : WFSt st)
    (hlo : alookup st.entries (MKey.id gid) = some ref)
    (hnl : alookup st.entries (MKey.name s) = none)
    (hups : s = pyUpper s) (h46s : 46 ∉ s) (h58s : 58 ∉ s)
    (g0 : GroupD) (hheap0 : alookup st.heap ref = some g0) (hgn0 : g0.gname = none) :
    GoodW ⟨aset st.entries (MKey.name s) ref,
           aset st.heap ref { g0 with gname := some s }, st.fresh⟩ ∧
    WFSt ⟨aset st.entries (MKey.name s) ref,
          aset st.heap ref { g0 with gname := some s }, st.fresh⟩ := by
  set E2 := aset st.entries (MKey.name s) ref with hE2
  have hlookS : alookup E2 (MKey.name s) = some ref := alookup_aset_self ..
  have hpres : ∀ k, k ≠ MKey.name s → alookup E2 k = alookup st.entries k :=
    fun k hk => alookup_aset_ne _ _ _ _ hk
  have hlookId : alookup E2 (MKey.id gid) = some ref := by
    rw [hpres _ (by simp)]
    exact hlo
  have hheapref : alookup (aset st.heap ref { g0 with gname := some s }) ref
      = some { g0 with gname := some s } := alookup_aset_self ..
  have hheappres : ∀ r, r ≠ ref →
      alookup (aset st.heap ref { g0 with gname := some s }) r = alookup st.heap r :=
    fun r hr => alookup_aset_ne _ _ _ _ hr
  constructor
  · intro e he
    by_cases hv : e.2 = ref
    · left
      rw [hv]
      exact ⟨⟨gid, hlookId⟩, ⟨{ g0 with gname := some s }, s, hheapref, rfl, hups,
        h46s, h58s, hlookS⟩⟩
    · have he2 : e ∈ st.entries := by
        rcases mem_aset he with rfl | he1
        · exact absurd rfl hv
        · exact he1
      rcases hg e he2 with ⟨⟨i2, hid2⟩, ⟨g2, nm2, hheap2, hgn2, hup2, h462, h582, hname2⟩⟩ |
        ⟨⟨i2, hid2⟩, ⟨g2, hheap2, hgn2⟩⟩
      · left
        have hnsne : MKey.name nm2 ≠ MKey.name s := by
          intro hc
          rw [hc, hnl] at hname2
          exact Option.noConfusion hname2
        exact ⟨⟨i2, by rw [hpres _ (by simp)]; exact hid2⟩,
          ⟨g2, nm2, by rw [hheappres _ hv]; exact hheap2, hgn2, hup2, h462, h582,
            by rw [hpres _ hnsne]; exact hname2⟩⟩
      · right
        exact ⟨⟨i2, by rw [hpres _ (by simp)]; exact hid2⟩,
          ⟨g2, by rw [hheappres _ hv]; exact hheap2, hgn2⟩⟩
  · refine ⟨keys_nodup_aset _ _ hw.1, ?_⟩
    intro e he
    rcases mem_aset he with rfl | he1
    · exact hw.2 (MKey.id gid, ref) (alookup_mem hlo)
    · exact hw.2 e he1

theorem goodW_applyROp (st : MState) (op : ROp) (hg : GoodW st) (hw : WFSt st)
    (hguard : rGuardB st op = true) :
    GoodW (applyROp st op) ∧ WFSt (applyROp st op) := by
  cases op with
  | paramRec gid pname pd =>
    cases hid : alookup st.entries (MKey.id gid) with
    | some ref =>
      cases hh : alookup st.heap ref with
      | some g =>
        simp only [applyROp, setdefaultAddParam, hid, hh]
        exact goodW_setdefault_param st ref g (aset g.params (pyUpper pname) pd) hg hw hh
      | none =>
        simp only [applyROp, setdefaultAddParam, hid, hh]
        exact ⟨hg, hw⟩
    | none =>
      simp only [applyROp, setdefaultAddParam, hid]
      exact goodW_setdefault_new st gid pname pd hg hw hid
  | groupRec gid nm =>
    simp only [rGuardB, Bool.and_eq_true, decide_eq_true_eq, beq_iff_eq] at hguard
    obtain ⟨⟨⟨hupb, h46⟩, h58⟩, hcol⟩ := hguard
    simp only [applyROp, readerGroupRecord]
    cases hid : alookup st.entries (MKey.id gid) with
    | some ref =>
      simp only [renameGroup, hid]
      cases hnl : alookup st.entries (MKey.name nm) with
      | some v =>
        simp only [hnl, Option.isSome_some, if_true, if_neg (by simp : ¬(MKey.name nm = MKey.id gid)), Option.getD_none]
        exact ⟨hg, hw⟩
      | none =>
        rcases hg _ (alookup_mem hid) with
          ⟨_, ⟨g0, nm0, hheap0, hgn0, hup0, h460, h580, hname0⟩⟩ |
          ⟨_, ⟨g0, hheap0, hgn0⟩⟩
        · simp only [hnl, Option.isSome_none, Bool.false_eq_true, if_false,
            hheap0, hgn0, hname0, Option.isSome_some, if_true, Option.getD_some]
          exact goodW_rename_named st gid nm ref hg hw hid hnl hupb h46 h58 g0 nm0
            hheap0 hgn0 hname0
        · simp only [hnl, Option.isSome_none, Bool.false_eq_true, if_false,
            hheap0, hgn0, Option.getD_some]
          exact goodW_rename_placeholder st gid nm ref hg hw hid hnl hupb h46 h58 g0
            hheap0 hgn0
    | none =>
      simp only [addGroup, hid]
      cases hnm : alookup st.entries (MKey.name (pyUpper nm)) with
      | some r =>
        have hsyn : alookup st.entries (MKey.name (pyUpper nm ++ intStr gid)) = none := by
          rw [← hupb]
          rw [← hupb] at hnm
          simpa [hnm, hid] using hcol
        simp only [hid, hnm, Option.isSome_none, Bool.false_eq_true, if_false, if_true,
          Option.getD_some]
        exact goodW_add_new st gid (pyUpper nm ++ intStr gid) hg hw
          (by rw [pyUpper_append, pyUpper_idem, pyUpper_intStr])
          (fun hc => (List.mem_append.mp hc).elim (fun h => (hupb ▸ h46) h)
            (fun h => (sep_not_mem_intStr gid).1 h))
          (fun hc => (List.mem_append.mp hc).elim (fun h => (hupb ▸ h58) h)
            (fun h => (sep_not_mem_intStr gid).2 h))
          hid hsyn
      | none =>
        simp only [hid, hnm, Option.isSome_none, Bool.false_eq_true, if_false,
          Option.getD_some]
        exact goodW_add_new st gid (pyUpper nm) hg hw (pyUpper_idem nm).symm
          (hupb ▸ h46) (hupb ▸ h58) hid hnm

theorem goodW_applyROps (rops : List ROp) : ∀ st : MState, GoodW st → WFSt st →
    rGuardedB st rops = true → GoodW (applyROps st rops) ∧ WFSt (applyROps st rops) := by
  induction rops with
  | nil =>
    intro st hg hw _
    exact ⟨hg, hw⟩
  | cons op ops ih =>
    intro st hg hw hguard
    simp only [rGuardedB, Bool.and_eq_true] at hguard
    have hstep := goodW_applyROp st op hg hw hguard.1
    exact ih _ hstep.1 hstep.2 hguard.2

theorem goodW_mstate0 : GoodW mstate0 := by
  intro e he
  simp [mstate0] at he

theorem goodSt_mstate0 : GoodSt mstate0 ∧ WFSt mstate0 := by
  refine ⟨fun e he => ?_, by simp [WFSt, mstate0], fun e he => ?_⟩ <;>
    simp [mstate0] at he

/-- C5 (counterexample) -- the dual-key invariant does NOT hold after every
sequence of Manager operations: `rename_group` stores the new name without
upper-casing it while `get` folds its argument to upper case, so after
`add_group(1, "POINT"); rename_group("POINT", "point")` the stored group is no
longer returned by `get` on its own name. -/
theorem claim_C5_dual_key_counterexample :
    dualKeyInvB (applyOps mstate0
      [MOp.add 1 [80, 79, 73, 78, 84] false,
       MOp.rename (MKey.name [80, 79, 73, 78, 84])
         (MKey.name [112, 111, 105, 110, 116])]) = false := by
  decide

/-- C5 (amended) -- dual-key invariant: both the name lookup and the
integer-id lookup return every stored group, remove_group on either key
deletes every key of that group, and this holds (a) after every sequence of
add_group, remove_group and rename_group operations in which added group
names are free of the '.' and ':' separators, string rename targets are
already upper-cased separator-free names, integer renames address the group
by its integer key, and — whenever the duplicate-renaming path is actually
taken — the synthesized name does not collide with an existing key; and (b)
after every Reader construction, i.e. every parameter walk of setdefault
placeholders and group records (whose names the walk upper-cases; the same
separator-freedom and conditional synthesized-name conditions) in which every
group id referenced by a parameter record also receives a group
declaration. -/
theorem claim_C5_dual_key_amended (ops : List MOp)
    (h : guardedB mstate0 ops = true) :
    dualKeyInvB (applyOps mstate0 ops) = true ∧
    (∀ st : MState, ∀ k k2 : MKey, ∀ ref : Nat,
      alookup st.entries k = some ref →
      alookup (removeGroup st k).entries k2 ≠ some ref) ∧
    (∀ rops : List ROp, rGuardedB mstate0 rops = true →
      noUnnamedB (applyROps mstate0 rops) = true →
      dualKeyInvB (applyROps mstate0 rops) = true) := by
  refine ⟨?_, ?_, ?_⟩
  · exact goodSt_dualKeyInv _
      (good_applyOps ops mstate0 goodSt_mstate0.1 goodSt_mstate0.2 h).1
  · intro st k k2 ref hk hc
    unfold removeGroup at hc
    rw [hk] at hc
    have := alookup_filter_sound _ hc
    simp at this
  · intro rops hrg hnu
    exact goodW_dualKeyInv _
      (goodW_applyROps rops mstate0 goodW_mstate0 goodSt_mstate0.2 hrg).1 hnu

/-- Witness for the amended C5: a concrete operation sequence exercising add,
    upper-case rename, integer rename and removal, and a concrete Reader walk
    (a parameter record arriving before its group record, a rename-path group
    record, and a duplicate-renaming add-path group record). -/
theorem claim_C5_dual_key_amended_witness :
    dualKeyInvB (applyOps mstate0
      [MOp.add 1 [80, 79, 73, 78, 84] false,
       MOp.add 2 [65, 78, 65, 76, 79, 71] false,
       MOp.rename (MKey.name [80, 79, 73, 78, 84]) (MKey.name [70, 79, 79]),
       MOp.rename (MKey.id 2) (MKey.id 5),
       MOp.remove (MKey.id 5)]) = true ∧
    dualKeyInvB (applyROps mstate0
      [ROp.paramRec 1 [85, 83, 69, 68] ⟨2, [1], [1, 0]⟩,
       ROp.groupRec 1 [80, 79, 73, 78, 84],
       ROp.groupRec 2 [80, 79, 73, 78, 84]]) = true :=
  ⟨(claim_C5_dual_key_amended
    [MOp.add 1 [80, 79, 73, 78, 84] false,
     MOp.add 2 [65, 78, 65, 76, 79, 71] false,
     MOp.rename (MKey.name [80, 79, 73, 78, 84]) (MKey.name [70, 79, 79]),
     MOp.rename (MKey.id 2) (MKey.id 5),
     MOp.remove (MKey.id 5)] (by decide)).1,
   (claim_C5_dual_key_amended [] (by decide)).2.2
     [ROp.paramRec 1 [85, 83, 69, 68] ⟨2, [1], [1, 0]⟩,
      ROp.groupRec 1 [80, 79, 73, 78, 84],
      ROp.groupRec 2 [80, 79, 73, 78, 84]] (by decide) (by decide)⟩

/-! ### C7: path parsing in `Manager.get` -/

theorem upperByte_sep {d s : Nat} (hs : s = 46 ∨ s = 58) (h : upperByte d = s) : d = s := by
  unfold upperByte at h
  rcases hs with rfl | rfl <;> [skip; skip] <;>
    · split_ifs at h <;> omega

theorem sep_not_mem_pyUpper {g : List Nat} {s : Nat} (hs : s = 46 ∨ s = 58)
    (h : s ∉ g) : s ∉ pyUpper g := by
  intro hc
  obtain ⟨d, hd, hud⟩ := List.mem_map.mp hc
  exact h (upperByte_sep hs hud ▸ hd)

theorem splitFirst_append_sep (sep : Nat) (a b : List Nat) (h : sep ∉ a) :
    splitFirst sep (a ++ sep :: b) = (a, b) := by
  induction a with
  | nil => simp [splitFirst]
  | cons c rest ih =>
    have hc : c ≠ sep := fun hcc => h (hcc ▸ List.mem_cons_self c rest)
    have hrest : sep ∉ rest := fun hm => h (List.mem_cons_of_mem c hm)
    simp [splitFirst, hc, ih hrest]

/-- Resolution of an upper-cased dotted path: look up the group half, then
    the parameter half. -/
theorem managerGetStr_dotted (st : MState) (gU pU : List Nat)
    (h46 : 46 ∉ gU) (h58 : 58 ∉ gU) :
    managerGetStr st (gU ++ 46 :: pU) =
      (match alookup st.entries (MKey.name gU) with
       | none => none
       | some ref =>
           match alookup st.heap ref with
           | some g =>
               if (alookup g.params pU).isSome then some (Entity.param ref pU) else none
           | none => none) := by
  have hmem : 46 ∈ gU ++ 46 :: pU := by simp
  simp only [managerGetStr, hmem, if_true, splitFirst_append_sep 46 gU pU h46, h58,
    if_false]

/-- Resolution of an upper-cased colon path: identical to the dotted path
    when neither half contains a period. -/
theorem managerGetStr_colon (st : MState) (gU pU : List Nat)
    (hg46 : 46 ∉ gU) (hg58 : 58 ∉ gU) (hp46 : 46 ∉ pU) :
    managerGetStr st (gU ++ 58 :: pU) =
      (match alookup st.entries (MKey.name gU) with
       | none => none
       | some ref =>
           match alookup st.heap ref with
           | some g =>
               if (alookup g.params pU).isSome then some (Entity.param ref pU) else none
           | none => none) := by
  have hno46 : 46 ∉ gU ++ 58 :: pU := by
    intro hc
    rcases List.mem_append.mp hc with h | h
    · exact hg46 h
    · rcases List.mem_cons.mp h with h | h
      · omega
      · exact hp46 h
  have hmem : 58 ∈ gU ++ 58 :: pU := by simp
  simp only [managerGetStr, hno46, if_false, hmem, if_true,
    splitFirst_append_sep 58 gU pU hg58]

/-- A separator-free string resolves to a plain group lookup. -/
theorem managerGetStr_plain (st : MState) (gU : List Nat)
    (h46 : 46 ∉ gU) (h58 : 58 ∉ gU) :
    managerGetStr st gU = (alookup st.entries (MKey.name gU)).map Entity.group := by
  simp only [managerGetStr, h46, if_false, h58]
  cases alookup st.entries (MKey.name gU) <;> simp [h46, h58]

theorem pyUpper_sep_cons (s : Nat) (hs : s = 46 ∨ s = 58) (p : List Nat) :
    pyUpper (s :: p) = s :: pyUpper p := by
  have : upperByte s = s := by rcases hs with rfl | rfl <;> rfl
  simp [pyUpper, this]

/-- C7 -- Manager.get: for every path string, lookup is case-insensitive on
both the group and parameter halves, the separators '.' and ':' are both
accepted for splitting a "GROUP.PARAM" / "GROUP:PARAM" path, an integer
argument returns the group stored under that id, and the supplied default
(modelled as `none`) is returned whenever any segment (group or parameter) is
missing. -/
theorem claim_C7_manager_get (st : MState) (i : Int) (s g p : List Nat)
    (hg46 : 46 ∉ g) (hg58 : 58 ∉ g) (hp46 : 46 ∉ p) (hp58 : 58 ∉ p) :
    managerGet st (Sum.inr (pyUpper s)) = managerGet st (Sum.inr s) ∧
    managerGet st (Sum.inr (g ++ 46 :: p)) = managerGet st (Sum.inr (g ++ 58 :: p)) ∧
    managerGet st (Sum.inl i) = (alookup st.entries (MKey.id i)).map Entity.group ∧
    (alookup st.entries (MKey.name (pyUpper g)) = none →
      managerGet st (Sum.inr (g ++ 46 :: p)) = none ∧
      managerGet st (Sum.inr g) = none) ∧
    (∀ ref g2, alookup st.entries (MKey.name (pyUpper g)) = some ref →
      alookup st.heap ref = some g2 → alookup g2.params (pyUpper p) = none →
      managerGet st (Sum.inr (g ++ 46 :: p)) = none) := by
  have hgU46 : 46 ∉ pyUpper g := sep_not_mem_pyUpper (Or.inl rfl) hg46
  have hgU58 : 58 ∉ pyUpper g := sep_not_mem_pyUpper (Or.inr rfl) hg58
  have hpU46 : 46 ∉ pyUpper p := sep_not_mem_pyUpper (Or.inl rfl) hp46
  have hdot : pyUpper (g ++ 46 :: p) = pyUpper g ++ 46 :: pyUpper p := by
    rw [pyUpper_append, pyUpper_sep_cons 46 (Or.inl rfl)]
  have hcolon : pyUpper (g ++ 58 :: p) = pyUpper g ++ 58 :: pyUpper p := by
    rw [pyUpper_append, pyUpper_sep_cons 58 (Or.inr rfl)]
  refine ⟨?_, ?_, rfl, ?_, ?_⟩
  · simp only [managerGet, pyUpper_idem]
  · simp only [managerGet, hdot, hcolon]
    rw [managerGetStr_dotted st _ _ hgU46 hgU58,
      managerGetStr_colon st _ _ hgU46 hgU58 hpU46]
  · intro hnone
    constructor
    · simp only [managerGet, hdot]
      rw [managerGetStr_dotted st _ _ hgU46 hgU58, hnone]
    · simp only [managerGet]
      rw [managerGetStr_plain st _ hgU46 hgU58, hnone]
      rfl
  · intro ref g2 href hheap hparam
    simp only [managerGet, hdot]
    rw [managerGetStr_dotted st _ _ hgU46 hgU58, href]
    simp [hheap, hparam]

/-- Witness for C7: a manager holding group `POINT` (id 1, no parameters),
    queried with lower-case dotted and colon paths. -/
theorem claim_C7_manager_get_witness :
    (managerGet (applyOps mstate0 [MOp.add 1 [80, 79, 73, 78, 84] false])
        (Sum.inr (pyUpper [112, 111, 105, 110, 116])) =
      managerGet (applyOps mstate0 [MOp.add 1 [80, 79, 73, 78, 84] false])
        (Sum.inr [112, 111, 105, 110, 116])) ∧
    (managerGet (applyOps mstate0 [MOp.add 1 [80, 79, 73, 78, 84] false])
        (Sum.inr ([112, 111, 105, 110, 116] ++ 46 :: [117, 115, 101, 100])) =
      managerGet (applyOps mstate0 [MOp.add 1 [80, 79, 73, 78, 84] false])
        (Sum.inr ([112, 111, 105, 110, 116] ++ 58 :: [117, 115, 101, 100]))) := by
  have h := claim_C7_manager_get
    (applyOps mstate0 [MOp.add 1 [80, 79, 73, 78, 84] false]) 1
    [112, 111, 105, 110, 116] [112, 111, 105, 110, 116] [117, 115, 101, 100]
    (by decide) (by decide) (by decide) (by decide)
  exact ⟨h.1, h.2.1⟩

/-! ### Header state and the Manager view

Float-valued header fields (`scale_factor`, `frame_rate`) hold `np.float32`
values in every state the library produces for writing; we represent them by
their IEEE-754 bit patterns. -/

structure HeaderS where
  parameter_block : Nat
  point_count : Nat
  analog_count : Nat
  first_frame : Nat
  last_frame : Nat
  max_gap : Nat
  scale_factor_bits : Nat
  data_block : Nat
  analog_per_frame : Nat
  frame_rate_bits : Nat
  long_event_labels : Bool
  event_count : Nat
  event_block : List Nat
deriving DecidableEq, Repr

/-- A `Manager`: a header, the dual-key group dictionary, and the processor
    type of the associated `DataTypes`. -/
structure ManagerV where
  header : HeaderS
  groups : MState
  proc : Nat
deriving DecidableEq, Repr

/-! ### C2: `Manager.last_frame` -/

def strTRIAL_ACTUAL_END_FIELD : List Nat :=
  [84, 82, 73, 65, 76, 58, 65, 67, 84, 85, 65, 76, 95, 69, 78, 68, 95, 70, 73, 69, 76, 68]

def strPOINT_LONG_FRAMES : List Nat :=
  [80, 79, 73, 78, 84, 58, 76, 79, 78, 71, 95, 70, 82, 65, 77, 69, 83]

def strPOINT_FRAMES : List Nat :=
  [80, 79, 73, 78, 84, 58, 70, 82, 65, 77, 69, 83]

/-- One slot of the `end_frame` candidate list: the slot keeps its initial
    `0.0` when `get` returns the default, and otherwise takes the parameter's
    `_as_integer_value` (`none` models the raise when that conversion fails,
    or when `get` improbably returns a group, which has no such attribute). -/
def endFrameSlot (m : ManagerV) (path : List Nat) : Option ℚ :=
  match managerGet m.groups (Sum.inr path) with
  | none => some 0
  | some (Entity.group _) => none
  | some (Entity.param ref pname) =>
      match alookup m.groups.heap ref with
      | some g =>
          match alookup g.params pname with
          | some pd => pd.asIntegerValue m.proc
          | none => none
      | none => none

/-- `Manager.last_frame` from the source: return the header value when the
    header range is valid and non-default; otherwise take
    `int(np.max(end_frame))` over the four candidates. -/
def lastFrame (m : ManagerV) : Option Int :=
  if m.header.first_frame < m.header.last_frame ∧ m.header.last_frame ≠ 65535 then
    some (m.header.last_frame : Int)
  else
    match endFrameSlot m strTRIAL_ACTUAL_END_FIELD,
        endFrameSlot m strPOINT_LONG_FRAMES,
        endFrameSlot m strPOINT_FRAMES with
    | some e1, some e2, some e3 =>
        some (pyInt (max (max (max ((m.header.last_frame : Nat) : ℚ) e1) e2) e3))
    | _, _, _ => none

theorem pyInt_intCast (n : Int) : pyInt ((n : Int) : ℚ) = n := by
  unfold pyInt
  simp

/-- Helper: a mapped unsigned-integer read is an integral rational. -/
theorem optMap_natCast_integral (o : Option Nat) (v : ℚ)
    (h : o.map (fun n => (n : ℚ)) = some v) : ∃ n : Int, ((n : Int) : ℚ) = v := by
  cases o with
  | none => simp at h
  | some n =>
      simp at h
      exact ⟨(n : Int), by push_cast; rw [h]⟩

/-- `_as_integer_value` only produces integral rationals (floats are returned
    only when they equal their truncation; the other branches are unsigned
    integer reads). -/
theorem asIntegerValue_integral (proc : Nat) (p : ParamD) (v : ℚ)
    (h : p.asIntegerValue proc = some v) : ∃ n : Int, ((n : Int) : ℚ) = v := by
  unfold ParamD.asIntegerValue at h
  split_ifs at h with h4 h2
  · split at h
    · exact Option.noConfusion h
    · rename_i w heq
      split_ifs at h with hint
      · exact ⟨pyInt w, by rw [← Option.some.inj h]; exact hint⟩
      · exact optMap_natCast_integral _ _ h
  · exact optMap_natCast_integral _ _ h
  · exact optMap_natCast_integral _ _ h

theorem endFrameSlot_integral (m : ManagerV) (path : List Nat) (v : ℚ)
    (h : endFrameSlot m path = some v) : ∃ n : Int, ((n : Int) : ℚ) = v := by
  unfold endFrameSlot at h
  split at h
  · exact ⟨0, by rw [← Option.some.inj h]; rfl⟩
  · exact Option.noConfusion h
  · split at h
    · split at h
      · exact asIntegerValue_integral m.proc _ v h
      · exact Option.noConfusion h
    · exact Option.noConfusion h

/-- C2 -- For every Manager, last_frame equals header.last_frame whenever
header.first_frame < header.last_frame and header.last_frame != 65535;
otherwise it equals the maximum of header.last_frame, TRIAL:ACTUAL_END_FIELD
(read via as_integer_value), POINT:LONG_FRAMES, and POINT:FRAMES, where each
missing parameter contributes 0 (`endFrameSlot` returns `some 0` exactly when
the parameter is missing). -/
theorem claim_C2_last_frame (m : ManagerV) (v1 v2 v3 : ℚ)
    (h1 : endFrameSlot m strTRIAL_ACTUAL_END_FIELD = some v1)
    (h2 : endFrameSlot m strPOINT_LONG_FRAMES = some v2)
    (h3 : endFrameSlot m strPOINT_FRAMES = some v3) :
    (m.header.first_frame < m.header.last_frame ∧ m.header.last_frame ≠ 65535 →
      lastFrame m = some (m.header.last_frame : Int)) ∧
    (¬(m.header.first_frame < m.header.last_frame ∧ m.header.last_frame ≠ 65535) →
      lastFrame m =
        some (max (max (max ((m.header.last_frame : Nat) : Int) (pyInt v1)) (pyInt v2))
          (pyInt v3))) := by
  constructor
  · intro hcond
    unfold lastFrame
    rw [if_pos hcond]
  · intro hcond
    unfold lastFrame
    rw [if_neg hcond, h1, h2, h3]
    show some (pyInt (max (max (max ((m.header.last_frame : Nat) : ℚ) v1) v2) v3)) = _
    obtain ⟨n1, hn1⟩ := endFrameSlot_integral m _ v1 h1
    obtain ⟨n2, hn2⟩ := endFrameSlot_integral m _ v2 h2
    obtain ⟨n3, hn3⟩ := endFrameSlot_integral m _ v3 h3
    have hcast : ((m.header.last_frame : Nat) : ℚ) = (((m.header.last_frame : Nat) : Int) : ℚ) := by
      push_cast
      rfl
    rw [← hn1, ← hn2, ← hn3, hcast, ← Int.cast_max, ← Int.cast_max, ← Int.cast_max]
    simp only [pyInt_intCast]

/-- Concrete manager used as the C2 witness: group TRIAL (id 3) holding a
    2-byte ACTUAL_END_FIELD parameter with value 1000; header range 1..1. -/
def managerC2W : ManagerV :=
  { header := ⟨2, 0, 0, 1, 1, 0, 0, 3, 0, 0, false, 0, []⟩,
    groups :=
      { entries := [(MKey.name [84, 82, 73, 65, 76], 0), (MKey.id 3, 0)],
        heap := [(0, ⟨some [84, 82, 73, 65, 76],
          [([65, 67, 84, 85, 65, 76, 95, 69, 78, 68, 95, 70, 73, 69, 76, 68],
            ⟨2, [1], [232, 3]⟩)]⟩)],
        fresh := 1 },
    proc := PROCESSOR_INTEL }

/-- Witness for C2: the header range 1..1 is not valid, so the maximum of the
    candidates (1, 1000, 0, 0) is returned. -/
theorem claim_C2_last_frame_witness : lastFrame managerC2W = some 1000 := by
  have h := (claim_C2_last_frame managerC2W 1000 0 0 (by decide) (by decide)
    (by decide)).2 (by decide)
  rw [h]
  decide

/-! ### C9: `Header.write`

`BINARY_FORMAT_WRITE = '<BBHHHHHfHHf274sHHH164s44s'`.  The two `f` fields
(`scale_factor`, `frame_rate`) hold `np.float32` values in every state the
writer produces (`Writer.write` stores `np.float32(...)` into them);
packing a float32 with `'f'` emits exactly its IEEE-754 bit pattern in
little-endian order, which is how the field is represented here. -/

/-- `struct.pack('Ns', b)`: truncate or zero-pad a byte string to length n. -/
def packBytesFixed (n : Nat) (b : List Nat) : List Nat :=
  b.take n ++ List.replicate (n - (b.take n).length) 0

/-- The 512 bytes produced by `Header.write`; the magic byte 0x50 is written
    as a constant at offset 1. -/
def headerPack (h : HeaderS) : List Nat :=
  [h.parameter_block % 256, 0x50] ++
  packLE16 h.point_count ++ packLE16 h.analog_count ++
  packLE16 h.first_frame ++ packLE16 h.last_frame ++ packLE16 h.max_gap ++
  packLE32 h.scale_factor_bits ++
  packLE16 h.data_block ++ packLE16 h.analog_per_frame ++
  packLE32 h.frame_rate_bits ++
  packBytesFixed 274 [] ++
  packLE16 (if h.long_event_labels then 0x3039 else 0) ++
  packLE16 h.event_count ++ packLE16 0 ++
  packBytesFixed 164 h.event_block ++
  packBytesFixed 44 []

/-- `Header.write(handle)`: `handle.seek(0)` then write the packed block.
    The sink is (contents, position); writing overwrites in place. -/
def headerWrite (h : HeaderS) (sink : List Nat × Nat) : List Nat × Nat :=
  let packed := headerPack h
  (packed ++ sink.1.drop packed.length, packed.length)

/-- Reassemble a u32 from a 4-byte little-endian list. -/
def leU32List : List Nat → Nat
  | [b0, b1, b2, b3] => leU32 b0 b1 b2 b3
  | _ => 0

theorem packBytesFixed_length (n : Nat) (b : List Nat) :
    (packBytesFixed n b).length = n := by
  simp [packBytesFixed]

theorem headerPack_length (h : HeaderS) : (headerPack h).length = 512 := by
  simp [headerPack, packLE16, packLE32, packBytesFixed_length]

theorem leU32List_packLE32 (n : Nat) (hn : n < 2 ^ 32) :
    leU32List (packLE32 n) = n := by
  simp only [packLE32, leU32List, leU32]
  omega

/-- C9 -- Header.write seeks to offset 0 and writes exactly 512 bytes, with
the magic byte 0x50 at offset 1, and emits the scale_factor and frame_rate
fields as raw u32 bit patterns (the stored IEEE bit pattern written verbatim
in bytes 12-15 and 20-23, recoverable by a little-endian u32 read, not
re-encoded through a float conversion). -/
theorem claim_C9_header_write (h : HeaderS) (contents : List Nat) (pos : Nat)
    (hscale : h.scale_factor_bits < 2 ^ 32) (hfr : h.frame_rate_bits < 2 ^ 32) :
    (headerPack h).length = 512 ∧
    (headerPack h)[1]? = some 0x50 ∧
    ((headerPack h).drop 12).take 4 = packLE32 h.scale_factor_bits ∧
    ((headerPack h).drop 20).take 4 = packLE32 h.frame_rate_bits ∧
    leU32List (((headerPack h).drop 12).take 4) = h.scale_factor_bits ∧
    leU32List (((headerPack h).drop 20).take 4) = h.frame_rate_bits ∧
    headerWrite h (contents, pos) = (headerPack h ++ contents.drop 512, 512) := by
  have hdrop12 : ((headerPack h).drop 12).take 4 = packLE32 h.scale_factor_bits := by
    simp [headerPack, packLE16, packLE32]
  have hdrop20 : ((headerPack h).drop 20).take 4 = packLE32 h.frame_rate_bits := by
    simp [headerPack, packLE16, packLE32]
  refine ⟨headerPack_length h, ?_, hdrop12, hdrop20, ?_, ?_, ?_⟩
  · simp [headerPack]
  · rw [hdrop12, leU32List_packLE32 _ hscale]
  · rw [hdrop20, leU32List_packLE32 _ hfr]
  · simp [headerWrite, headerPack_length h]

/-- Witness for C9 at a concrete header (scale −1.0 = 0xBF800000,
    frame rate 480.0 = 0x43F00000). -/
theorem claim_C9_header_write_witness :
    (headerPack ⟨2, 3, 0, 1, 2, 0, 3212836864, 3, 0, 1139802112, false, 0, []⟩).length
        = 512 ∧
    leU32List (((headerPack
        ⟨2, 3, 0, 1, 2, 0, 3212836864, 3, 0, 1139802112, false, 0, []⟩).drop 12).take 4)
      = 3212836864 := by
  have hfull := claim_C9_header_write
    ⟨2, 3, 0, 1, 2, 0, 3212836864, 3, 0, 1139802112, false, 0, []⟩ [] 0
    (by decide) (by decide)
  exact ⟨hfull.1, hfull.2.2.2.2.1⟩

/-! ### C4 / C1: `Writer._write_frames`

The emission is modelled as a flat list of numeric words in file order (the
byte serialization through `array.array` is not modelled; note in passing
that the integer path uses `array.array('i')`, i.e. 4 bytes per int16
value).  A point is a 5-tuple (x, y, z, residual, camera count); a frame is
`(points, analog)`. -/

/-- numpy int16 wrap-around. -/
def i16wrap (n : Int) : Int := (n + 2 ^ 15).emod (2 ^ 16) - 2 ^ 15

/-- Storing a value into the `raw` buffer: the float path keeps the exact
    value (float32 rounding of the stored array is not re-applied); the
    integer path is `astype(np.int16)`, truncation toward zero with
    wrap-around. -/
def castStore (isFloat : Bool) (q : ℚ) : ℚ :=
  if isFloat then q else ((i16wrap (pyInt q) : Int) : ℚ)

/-- The packed fourth word
    `((points[:,4]).astype(np.uint8) << 8) | (points[:,3]/scale).astype(np.uint16)`.
    The left operand is a `uint8` array shifted by a scalar that fits in
    `uint8`, so numpy evaluates the shift in `uint8` and it wraps to zero:
    the camera byte is lost. -/
def fourthWord (scale : ℚ) (res cam : ℚ) : Nat :=
  let camByte : Nat := ((pyInt cam).emod 256).toNat
  let shifted : Nat := camByte * 256 % 256
  let resWord : Nat := ((pyInt (res / scale)).emod 65536).toNat
  Nat.lor shifted resWord

/-- One row of the `raw` buffer after processing one point: valid points
    (residual > −1) store scaled x, y, z and the packed fourth word; invalid
    points store −1 in the fourth slot and leave x, y, z stale. -/
def writeFrameRow (isFloat : Bool) (scale psD : ℚ) (prev : ℚ × ℚ × ℚ × ℚ)
    (p : ℚ × ℚ × ℚ × ℚ × ℚ) : ℚ × ℚ × ℚ × ℚ :=
  if p.2.2.2.1 > -1 then
    (castStore isFloat (p.1 / psD), castStore isFloat (p.2.1 / psD),
     castStore isFloat (p.2.2.1 / psD),
     castStore isFloat ((fourthWord scale p.2.2.2.1 p.2.2.2.2 : Nat) : ℚ))
  else
    (prev.1, prev.2.1, prev.2.2.1, -1)

def updateRaw (isFloat : Bool) (scale psD : ℚ) :
    List (ℚ × ℚ × ℚ × ℚ) → List (ℚ × ℚ × ℚ × ℚ × ℚ) → List (ℚ × ℚ × ℚ × ℚ)
  | prev :: prevRest, p :: ps =>
      writeFrameRow isFloat scale psD prev p :: updateRaw isFloat scale psD prevRest ps
  | prevRest, _ => prevRest

/-- `raw.flatten()` in row-major order. -/
def rowsToWords (raw : List (ℚ × ℚ × ℚ × ℚ)) : List ℚ :=
  raw.flatMap (fun r => [r.1, r.2.1, r.2.2.1, r.2.2.2])

/-- The three analog lines of the loop body, with the source's variable
    shadowing mirrored by `let` rebinding: `analog = array.array(...)`
    rebinds the name to a fresh empty buffer, `analog.extend(analog)` extends
    that empty buffer with itself, and `analog.tofile(handle)` then emits its
    contents — nothing. -/
def writeShadowedAnalog (analog : List ℚ) : List ℚ :=
  let analog : List ℚ := []
  let analog : List ℚ := analog ++ analog
  analog

def writeFramesGo (isFloat : Bool) (scale psD : ℚ) :
    List (ℚ × ℚ × ℚ × ℚ) → List (List (ℚ × ℚ × ℚ × ℚ × ℚ) × List ℚ) → List ℚ
  | _, [] => []
  | raw, (points, analog) :: rest =>
      let raw2 := updateRaw isFloat scale psD raw points
      rowsToWords raw2 ++ writeShadowedAnalog analog ++
        writeFramesGo isFloat scale psD raw2 rest

structure WCfg where
  pointScale : ℚ
  pointUsed : Nat
deriving DecidableEq, Repr

/-- `Writer._write_frames`, emitted as a flat list of words.  `scale` is
    `abs(self.point_scale)`; the float path divides x, y, z by 1.0, the
    integer path by the scale.  The `raw` buffer is reused across frames
    (`np.empty`; its unspecified initial contents are modelled as zeros). -/
def writeFramesWords (cfg : WCfg) (frames : List (List (ℚ × ℚ × ℚ × ℚ × ℚ) × List ℚ)) :
    List ℚ :=
  let scale : ℚ := if cfg.pointScale < 0 then -cfg.pointScale else cfg.pointScale
  let isFloat := cfg.pointScale < 0
  let psD : ℚ := if isFloat then 1 else scale
  writeFramesGo isFloat scale psD (List.replicate cfg.pointUsed (0, 0, 0, 0)) frames

/-- What claim C4 asserts the code does: emit each frame's analog words twice. -/
def claimWriteFramesWords (cfg : WCfg)
    (frames : List (List (ℚ × ℚ × ℚ × ℚ × ℚ) × List ℚ)) : List ℚ :=
  let scale : ℚ := if cfg.pointScale < 0 then -cfg.pointScale else cfg.pointScale
  let isFloat := cfg.pointScale < 0
  let psD : ℚ := if isFloat then 1 else scale
  claimGo isFloat scale psD (List.replicate cfg.pointUsed (0, 0, 0, 0)) frames
where
  claimGo (isFloat : Bool) (scale psD : ℚ) :
      List (ℚ × ℚ × ℚ × ℚ) → List (List (ℚ × ℚ × ℚ × ℚ × ℚ) × List ℚ) → List ℚ
    | _, [] => []
    | raw, (points, analog) :: rest =>
        let raw2 := updateRaw isFloat scale psD raw points
        rowsToWords raw2 ++ analog ++ analog ++ claimGo isFloat scale psD raw2 rest

/-- The frame emission with each frame contributing only its point words. -/
def writeFramesPointsOnly (cfg : WCfg)
    (frames : List (List (ℚ × ℚ × ℚ × ℚ × ℚ) × List ℚ)) : List ℚ :=
  let scale : ℚ := if cfg.pointScale < 0 then -cfg.pointScale else cfg.pointScale
  let isFloat := cfg.pointScale < 0
  let psD : ℚ := if isFloat then 1 else scale
  pointsGo isFloat scale psD (List.replicate cfg.pointUsed (0, 0, 0, 0)) frames
where
  pointsGo (isFloat : Bool) (scale psD : ℚ) :
      List (ℚ × ℚ × ℚ × ℚ) → List (List (ℚ × ℚ × ℚ × ℚ × ℚ) × List ℚ) → List ℚ
    | _, [] => []
    | raw, (points, _) :: rest =>
        let raw2 := updateRaw isFloat scale psD raw points
        rowsToWords raw2 ++ pointsGo isFloat scale psD raw2 rest

unseal Rat.mul Rat.add Rat.inv Rat.sub in
/-- C4 (counterexample) -- the analog buffer is NOT emitted twice: for a
one-point float-format writer with one frame whose analog data is [5, 6],
the emitted words differ from the point words followed by two copies of the
analog words. -/
theorem claim_C4_analog_twice_counterexample :
    writeFramesWords ⟨-1, 1⟩ [([(1, 2, 3, 0, 0)], [5, 6])] ≠
      claimWriteFramesWords ⟨-1, 1⟩ [([(1, 2, 3, 0, 0)], [5, 6])] := by
  decide

theorem writeShadowedAnalog_nil (analog : List ℚ) : writeShadowedAnalog analog = [] := rfl

/-- C4 (amended) -- In Writer._write_frames, for every buffered frame, the
frame's analog bytes are written ZERO times (not twice): the shadowed
variable rebinds the analog buffer to a fresh empty array which is extended
with itself and emitted, so every frame contributes exactly its point words
and no analog words. -/
theorem claim_C4_analog_shadowing_amended (cfg : WCfg)
    (frames : List (List (ℚ × ℚ × ℚ × ℚ × ℚ) × List ℚ)) :
    writeFramesWords cfg frames = writeFramesPointsOnly cfg frames := by
  unfold writeFramesWords writeFramesPointsOnly
  generalize List.replicate cfg.pointUsed ((0 : ℚ), (0 : ℚ), (0 : ℚ), (0 : ℚ)) = raw
  induction frames generalizing raw with
  | nil => rfl
  | cons fr rest ih =>
    obtain ⟨points, analog⟩ := fr
    simp only [writeFramesGo, writeFramesPointsOnly.pointsGo, writeShadowedAnalog_nil,
      List.append_nil, List.nil_append]
    rw [ih]

unseal Rat.mul Rat.add Rat.inv Rat.sub in
/-- C1 -- failing-input evaluation: a Writer with float scale −1, one point
per frame and one buffered frame whose point row is (1, 2, 3, 0, 0) with
analog samples [5, 6] emits exactly the four point words; the analog samples
never reach the sink, so reading the file back cannot reproduce them (the
round-trip property fails on any frame with analog data). -/
theorem claim_C1_writer_drops_analog :
    writeFramesWords ⟨-1, 1⟩ [([(1, 2, 3, 0, 0)], [5, 6])] = [1, 2, 3, 0] ∧
    (5 : ℚ) ∉ writeFramesWords ⟨-1, 1⟩ [([(1, 2, 3, 0, 0)], [5, 6])] := by
  constructor <;> decide

/-! ### C8: `Reader.read_frames` and short-read recovery

The loop's configuration (scale, word widths, analog offsets/scales) is
resolved from the parameter dictionary before the loop; we take those
resolved values as a record.  Data is the byte stream from the start of the
data section. -/

structure RCfg where
  firstFrame : Nat
  lastFrame : Nat
  pointUsed : Nat
  analogUsed : Nat
  analogPerFrame : Nat
  pointScale : ℚ
  proc : Nat
  analogUnsigned : Bool
  offsets : List Int
  analogScales : List ℚ
  genScale : ℚ

def RCfg.isFloat (c : RCfg) : Bool := decide (c.pointScale < 0)

/-- `scale_mag = abs(self.point_scale)`. -/
def RCfg.scaleMag (c : RCfg) : ℚ :=
  if c.pointScale < 0 then -c.pointScale else c.pointScale

def RCfg.pointWordBytes (c : RCfg) : Nat := if c.isFloat then 4 else 2

def RCfg.analogWordBytes (c : RCfg) : Nat := if c.isFloat then 4 else 2

def RCfg.NPoint (c : RCfg) : Nat := 4 * c.pointUsed

def RCfg.NAnalog (c : RCfg) : Nat := c.analogUsed * c.analogPerFrame

def RCfg.pointBytes (c : RCfg) : Nat := c.NPoint * c.pointWordBytes

def RCfg.analogBytes (c : RCfg) : Nat := c.NAnalog * c.analogWordBytes

def RCfg.frameBytes (c : RCfg) : Nat := c.pointBytes + c.analogBytes

/-- The number of loop iterations `range(first_frame, last_frame + 1)`. -/
def RCfg.frameCount (c : RCfg) : Nat := c.lastFrame + 1 - c.firstFrame

/-- Consecutive little-endian 32-bit words of a byte buffer. -/
def leWords32 : List Nat → List Nat
  | b0 :: b1 :: b2 :: b3 :: rest => leU32 b0 b1 b2 b3 :: leWords32 rest
  | _ => []

/-- Consecutive big-endian 32-bit words of a byte buffer. -/
def beWords32 : List Nat → List Nat
  | b0 :: b1 :: b2 :: b3 :: rest => beU32 b0 b1 b2 b3 :: beWords32 rest
  | _ => []

/-- f32 bit patterns of a raw buffer per processor: DEC buffers go through
    the bulk byte reshuffle and are then read little-endian; MIPS is
    big-endian; Intel little-endian. -/
def f32WordBits (proc : Nat) (bs : List Nat) : List Nat :=
  if proc = PROCESSOR_DEC then leWords32 (decReshuffle bs)
  else if proc = PROCESSOR_MIPS then beWords32 bs
  else leWords32 bs

/-- Consecutive int16 words per processor endianness. -/
def words16 (proc : Nat) : List Nat → List Int
  | b0 :: b1 :: rest =>
      i16wrap (if proc = PROCESSOR_MIPS then leU16 b1 b0 else leU16 b0 b1) ::
        words16 proc rest
  | _ => []

/-- Consecutive uint16 words per processor endianness. -/
def uwords16 (proc : Nat) : List Nat → List Nat
  | b0 :: b1 :: rest =>
      (if proc = PROCESSOR_MIPS then leU16 b1 b0 else leU16 b0 b1) :: uwords16 proc rest
  | _ => []

/-- Total decode of an f32 pattern into the points array: finite patterns
    take their exact value; inf/NaN patterns have no rational value and are
    mapped to 0 (claim C8 does not depend on them). -/
def f32Val (bits : Nat) : ℚ := (f32ToRat bits).getD 0

/-- `astype(np.int32)` of an f32 column: truncation with wrap-around;
    non-finite values become INT32_MIN. -/
def f32toI32 (bits : Nat) : Int :=
  match f32ToRat bits with
  | none => -(2 ^ 31)
  | some q => (pyInt q + 2 ^ 31).emod (2 ^ 32) - 2 ^ 31

/-- `sum((c & (1 << k)) >> k for k in range(8, 15))`: the number of set bits
    among bits 8..14. -/
def camCount (c : Nat) : Nat :=
  ((List.range 7).map (fun k => c / 2 ^ (k + 8) % 2)).sum

/-- Float-path point rows: x, y, z from the f32 words; the fourth word's
    int32 bits decide validity (`bits & 0x80008000 == 0`), the low byte
    scaled by `scale_mag` is the residual and bits 8..14 give the camera
    count; invalid rows get −1 residual and camera. -/
def decodePointsFloat (scaleMag : ℚ) : List Nat → List (ℚ × ℚ × ℚ × ℚ × ℚ)
  | wx :: wy :: wz :: w3 :: rest =>
      let lw := f32toI32 w3
      let bits := (lw.emod (2 ^ 32)).toNat
      (if bits &&& 0x80008000 = 0 then
        (f32Val wx, f32Val wy, f32Val wz,
         ((bits &&& 0xff : Nat) : ℚ) * scaleMag, (camCount bits : ℚ))
      else (f32Val wx, f32Val wy, f32Val wz, -1, -1)) :: decodePointsFloat scaleMag rest
  | _ => []

/-- Integer-path point rows: x, y, z are int16 words times `scale_mag`; the
    fourth int16 decides validity (`> -1`) and is reinterpreted as uint16
    for the residual/camera split. -/
def decodePointsInt (scaleMag : ℚ) : List Int → List (ℚ × ℚ × ℚ × ℚ × ℚ)
  | vx :: vy :: vz :: v3 :: rest =>
      (if v3 > -1 then
        let c := (v3.emod (2 ^ 16)).toNat
        ((vx : ℚ) * scaleMag, (vy : ℚ) * scaleMag, (vz : ℚ) * scaleMag,
         ((c &&& 0xff : Nat) : ℚ) * scaleMag, (camCount c : ℚ))
      else ((vx : ℚ) * scaleMag, (vy : ℚ) * scaleMag, (vz : ℚ) * scaleMag, -1, -1)) ::
        decodePointsInt scaleMag rest
  | _ => []

def decodeFramePoints (cfg : RCfg) (rawBytes : List Nat) : List (ℚ × ℚ × ℚ × ℚ × ℚ) :=
  if cfg.isFloat then decodePointsFloat cfg.scaleMag (f32WordBits cfg.proc rawBytes)
  else decodePointsInt cfg.scaleMag (words16 cfg.proc rawBytes)

/-- The flat analog word values of one frame's analog bytes. -/
def analogWordsQ (cfg : RCfg) (bs : List Nat) : List ℚ :=
  if cfg.isFloat then (f32WordBits cfg.proc bs).map f32Val
  else if cfg.analogUnsigned then (uwords16 cfg.proc bs).map (fun n => (n : ℚ))
  else (words16 cfg.proc bs).map (fun n => (n : ℚ))

/-- `analog.reshape((-1, analog_used)).T` then
    `(analog - offsets) * analog_scales * gen_scale`: channel i, sample j is
    the flat word at `j * analog_used + i`, shifted and scaled per channel. -/
def decodeFrameAnalog (cfg : RCfg) (bs : List Nat) : List (List ℚ) :=
  if cfg.NAnalog > 0 then
    let ws := analogWordsQ cfg bs
    (List.range cfg.analogUsed).map (fun i =>
      (List.range cfg.analogPerFrame).map (fun j =>
        (ws.getD (j * cfg.analogUsed + i) 0 - ((cfg.offsets.getD i 0 : Int) : ℚ)) *
          cfg.analogScales.getD i 1 * cfg.genScale))
  else []

/-- One yielded `(frame_no, points, analog)` triple. -/
structure FrameR where
  frameNo : Nat
  points : List (ℚ × ℚ × ℚ × ℚ × ℚ)
  analog : List (List ℚ)
deriving DecidableEq, Repr

/-- The `read_frames` loop: per frame read the point bytes then the analog
    bytes; a short read of either warns (the Bool) and terminates the
    iteration cleanly, yielding nothing further. -/
def readFramesLoop (cfg : RCfg) (pb ab : Nat) :
    Nat → List Nat → Nat → List FrameR × Bool
  | 0, _, _ => ([], false)
  | Nat.succ k, data, frameNo =>
      let rawB := data.take pb
      let rest1 := data.drop pb
      let rawA := rest1.take ab
      let rest2 := rest1.drop ab
      if rawB.length < pb then ([], true)
      else if rawA.length < ab then ([], true)
      else
        let fr : FrameR := ⟨frameNo, decodeFramePoints cfg rawB, decodeFrameAnalog cfg rawA⟩
        let pr := readFramesLoop cfg pb ab k rest2 (frameNo + 1)
        (fr :: pr.1, pr.2)

/-- `Reader.read_frames` over the data section bytes: iterate frame numbers
    `first_frame .. last_frame`; the Bool records whether a short-read
    warning was emitted. -/
def readFrames (cfg : RCfg) (data : List Nat) : List FrameR × Bool :=
  readFramesLoop cfg cfg.pointBytes cfg.analogBytes cfg.frameCount data cfg.firstFrame

theorem readFramesLoop_trunc (cfg : RCfg) (pb ab : Nat) (hfb : 0 < pb + ab) :
    ∀ (count : Nat) (data : List Nat) (frameNo : Nat),
      data.length < count * (pb + ab) →
      readFramesLoop cfg pb ab count data frameNo =
        ((List.range (data.length / (pb + ab))).map (fun t =>
          (⟨frameNo + t,
            decodeFramePoints cfg ((data.drop (t * (pb + ab))).take pb),
            decodeFrameAnalog cfg ((data.drop (t * (pb + ab) + pb)).take ab)⟩ : FrameR)),
         true) := by
  intro count
  induction count with
  | zero =>
    intro data frameNo h
    simp at h
  | succ k ih =>
    intro data frameNo h
    by_cases hlt : data.length < pb + ab
    · have hdiv : data.length / (pb + ab) = 0 := Nat.div_eq_of_lt hlt
      rw [hdiv]
      simp only [List.range_zero, List.map_nil]
      by_cases hp : data.length < pb
      · have h1 : (data.take pb).length < pb := by
          simp [List.length_take]
          omega
        simp only [readFramesLoop, if_pos h1]
      · have h1 : ¬ (data.take pb).length < pb := by
          simp [List.length_take]
          omega
        have h2 : ((data.drop pb).take ab).length < ab := by
          simp [List.length_take, List.length_drop]
          omega
        simp only [readFramesLoop, if_neg h1, if_pos h2]
    · push_neg at hlt
      have h1 : ¬ (data.take pb).length < pb := by
        simp [List.length_take]
        omega
      have h2 : ¬ ((data.drop pb).take ab).length < ab := by
        simp [List.length_take, List.length_drop]
        omega
      have hlen2 : ((data.drop pb).drop ab).length < k * (pb + ab) := by
        simp only [List.length_drop]
        simp only [List.length_cons, Nat.succ_mul] at h
        omega
      have hrec := ih ((data.drop pb).drop ab) (frameNo + 1) hlen2
      simp only [readFramesLoop, if_neg h1, if_neg h2, hrec]
      have hsplit : data.length / (pb + ab) =
          ((data.drop pb).drop ab).length / (pb + ab) + 1 := by
        rw [Nat.div_eq_sub_div hfb hlt]
        simp only [List.length_drop]
        have heq : data.length - pb - ab = data.length - (pb + ab) := by omega
        rw [heq]
      rw [hsplit, List.range_succ_eq_map]
      simp only [List.map_cons, List.map_map]
      refine Prod.ext ?_ rfl
      simp only
      congr 1
      · simp
      · refine List.map_congr_left (fun t ht => ?_)
        simp only [Function.comp]
        have e1 : ((data.drop pb).drop ab).drop (t * (pb + ab)) =
            data.drop ((t + 1) * (pb + ab)) := by
          simp only [List.drop_drop]
          congr 1
          ring
        have e2 : ((data.drop pb).drop ab).drop (t * (pb + ab) + pb) =
            data.drop ((t + 1) * (pb + ab) + pb) := by
          simp only [List.drop_drop]
          congr 1
          ring
        rw [e1, e2]
        simp only [Nat.succ_eq_add_one]
        have hfn : frameNo + 1 + t = frameNo + (t + 1) := by omega
        rw [hfn]

/-- C8 -- Short-read recovery: for every data section truncated before
`frame_count` complete frames, `read_frames` yields exactly the complete
frames read before the truncation (each decoded from its point and analog
byte chunks), emits the short-read warning (the Bool), and terminates
cleanly without raising — `readFrames` is a total function and the
truncated run returns normally, leaving the Reader usable. -/
theorem claim_C8_short_read (cfg : RCfg) (data : List Nat)
    (hfb : 0 < cfg.frameBytes)
    (htrunc : data.length < cfg.frameCount * cfg.frameBytes) :
    readFrames cfg data =
      ((List.range (data.length / cfg.frameBytes)).map (fun t =>
        (⟨cfg.firstFrame + t,
          decodeFramePoints cfg ((data.drop (t * cfg.frameBytes)).take cfg.pointBytes),
          decodeFrameAnalog cfg
            ((data.drop (t * cfg.frameBytes + cfg.pointBytes)).take cfg.analogBytes)⟩ :
          FrameR)),
       true) :=
  readFramesLoop_trunc cfg cfg.pointBytes cfg.analogBytes hfb cfg.frameCount data
    cfg.firstFrame htrunc

/-- Concrete reader configuration for the C8 witness: Intel integer format,
    scale 1, one point, no analog, frames 1..3. -/
def rcfgW : RCfg :=
  ⟨1, 3, 1, 0, 0, 1, PROCESSOR_INTEL, false, [], [], 1⟩

unseal Rat.mul Rat.add Rat.inv Rat.sub in
/-- Witness for C8: 11 bytes hold one complete 8-byte frame plus 3 stray
    bytes; the single complete frame (1, 2, 3, residual 4, camera 0) is
    yielded and the warning flag is set. -/
theorem claim_C8_short_read_witness :
    readFrames rcfgW [1, 0, 2, 0, 3, 0, 4, 0, 9, 9, 9] =
      ([⟨1, [(1, 2, 3, 4, 0)], []⟩], true) := by
  rw [claim_C8_short_read rcfgW [1, 0, 2, 0, 3, 0, 4, 0, 9, 9, 9] (by decide) (by decide)]
  decide

/-! ### C10: `DataTypes.decode_string`

The fallback chain tries `utf-8`, then `latin-1`, and finally `utf-8` with
replacement characters.  We model the strict `utf-8` codec (rejecting
continuation-byte errors, overlong encodings, surrogates, and values above
U+10FFFF), and the `latin-1` codec, which maps every byte b < 256 to the
code point b and can therefore never fail. -/

/-- Python's strict `utf-8` decoder, producing code points. -/
def utf8Decode : List Nat → Option (List Nat)
  | [] => some []
  | b :: rest =>
      if b < 0x80 then (utf8Decode rest).map (b :: ·)
      else if b < 0xC2 then none
      else if b < 0xE0 then
        match rest with
        | b2 :: rest2 =>
            if 0x80 ≤ b2 ∧ b2 < 0xC0 then
              (utf8Decode rest2).map (((b - 0xC0) * 64 + (b2 - 0x80)) :: ·)
            else none
        | [] => none
      else if b < 0xF0 then
        match rest with
        | b2 :: b3 :: rest3 =>
            if (0x80 ≤ b2 ∧ b2 < 0xC0) ∧ (0x80 ≤ b3 ∧ b3 < 0xC0) then
              let cp := (b - 0xE0) * 4096 + (b2 - 0x80) * 64 + (b3 - 0x80)
              if cp < 0x800 ∨ (0xD800 ≤ cp ∧ cp ≤ 0xDFFF) then none
              else (utf8Decode rest3).map (cp :: ·)
            else none
        | _ => none
      else if b < 0xF5 then
        match rest with
        | b2 :: b3 :: b4 :: rest4 =>
            if (0x80 ≤ b2 ∧ b2 < 0xC0) ∧ (0x80 ≤ b3 ∧ b3 < 0xC0) ∧
                (0x80 ≤ b4 ∧ b4 < 0xC0) then
              let cp := (b - 0xF0) * 262144 + (b2 - 0x80) * 4096 +
                (b3 - 0x80) * 64 + (b4 - 0x80)
              if cp < 0x10000 ∨ 0x10FFFF < cp then none
              else (utf8Decode rest4).map (cp :: ·)
            else none
        | _ => none
      else none

/-- The `latin-1` codec for one byte: every byte value below 256 decodes to
    the code point of the same value. -/
def latin1DecodeByte (b : Nat) : Option Nat := if b < 256 then some b else none

/-- The `latin-1` codec. -/
def latin1Decode (bs : List Nat) : Option (List Nat) := bs.mapM latin1DecodeByte

/-- The `utf-8` 'replace' decode.  This branch of `decode_string` is proved
    unreachable (latin-1 never fails), so the replacement behavior is
    modelled coarsely: undecodable positions become U+FFFD byte by byte. -/
def utf8Replace : List Nat → List Nat
  | [] => []
  | b :: rest => (if b < 0x80 then b else 0xFFFD) :: utf8Replace rest

/-- `DataTypes.decode_string`: try utf-8, then latin-1, then utf-8 with
    replacement characters. -/
def decode_string (bs : List Nat) : List Nat :=
  match utf8Decode bs with
  | some s => s
  | none =>
      match latin1Decode bs with
      | some s => s
      | none => utf8Replace bs

theorem latin1Decode_total (bs : List Nat) (hb : ∀ b ∈ bs, b < 256) :
    latin1Decode bs = some bs := by
  induction bs with
  | nil => rfl
  | cons b rest ih =>
    have hbb : b < 256 := hb b (List.mem_cons_self b rest)
    have hrest : latin1Decode rest = some rest :=
      ih (fun x hx => hb x (List.mem_cons_of_mem b hx))
    simp only [latin1Decode, List.mapM_cons, latin1DecodeByte, if_pos hbb]
    simp only [latin1Decode] at hrest
    rw [hrest]
    rfl

/-- C10 -- DataTypes.decode_string is total: for every byte string input it
returns a text string and never raises, because the Latin-1 decoder in the
fallback chain accepts every byte sequence, making the final
UTF-8-with-replacement branch unreachable: the result is the UTF-8 decode
when that succeeds and the Latin-1 decode otherwise. -/
theorem claim_C10_decode_string_total (bs : List Nat) (hb : ∀ b ∈ bs, b < 256) :
    latin1Decode bs = some bs ∧
    decode_string bs = (utf8Decode bs).getD bs := by
  refine ⟨latin1Decode_total bs hb, ?_⟩
  unfold decode_string
  cases hu : utf8Decode bs with
  | some s => rfl
  | none =>
      rw [latin1Decode_total bs hb]
      rfl

/-- Witness for C10 at `[0xFF, 0x41]`, which is invalid UTF-8 and decodes
    through Latin-1. -/
theorem claim_C10_decode_string_total_witness :
    latin1Decode [255, 65] = some [255, 65] ∧
    decode_string [255, 65] = (utf8Decode [255, 65]).getD [255, 65] :=
  claim_C10_decode_string_total [255, 65] (by decide)

end C3D
